import Mathlib

/-!
# Decision-tree induction and prediction (`decision_tree.cpp`)

A shallow embedding of the induction / prediction core of `decision_tree.cpp`
together with machine-checked statements about it.

Modelling conventions

* `vector<string>` is `List String`, `vector<vector<string>>` is `List (List String)`.
* `std::map<string, V>` is an association list kept in strictly ascending key order, the
  order in which the C++ code iterates the map.  `std::string` compares bytewise; on the
  UTF-8 encoding this is the code-point-wise lexicographic order of `String.data`.
* `int` column indices are `Int`; the counters (`map<string,int>`, `int total`) are `Nat`
  (they only count rows, wrap-around at `2^31` rows is not modelled).
* `row[i]` outside the row is undefined behaviour in C++; `cell` returns `""` there
  (the same accessor reads `attributeNames[bestFeature]`).
* `depth + 1` is only computed when `depth < maxDepth`, so it never overflows an `int`.
* `double` arithmetic: an operation `+ - * /` on doubles returns `fl` of the exact result,
  the IEEE-754 binary64 rounding to nearest, ties to even, on exact rationals (every
  `double` is a rational; each operation is rounded on its own, none is fused).  The
  functions `giniImpurityDouble`, `giniSplitDouble`, `entropyDouble`,
  `informationGainDouble`, `gainRatioDouble`, `scoreDouble` and `calculateAccuracy` are
  written with `fl` and are the values the program computes.  The result of
  `calculateAccuracy` is a `Dbl`: a finite `double`, an infinity or the IEEE-754
  not-a-number, so that the division by `data.size() = 0` has the value it has in `double`
  arithmetic.
* `log2` is a function of the C library, not of the program, and no standard fixes its last
  bit: the `double` functions take it as a parameter `log2 : ℚ → ℚ`, and a statement that
  depends on its accuracy says so (`Log2Accurate`: a relative error of at most `2^-52`,
  one unit in the last place, at the arguments it is called with).
* `giniImpurity`, `giniSplit` (rational) and `entropy`, `informationGain`, `splitInfo`,
  `gainRatio`, `score` (real) are the exact values of the same formulas, from which the
  computed doubles differ by rounding errors.
* The tree builder itself is written over an arbitrary scoring function and an arbitrary
  decidable comparison, so every statement that does not mention a concrete metric holds
  for any way of computing and comparing scores, that of the program included.
-/

namespace DecisionTree

/-- A data row: one string cell per attribute column. -/
abbrev Row := List String

/-- A dataset: the rows in file order. -/
abbrev Dataset := List Row

/-- The cell `row[i]`; `""` when `i` is not a position of `row`. -/
def cell (row : Row) (i : Int) : String :=
  if i < 0 then "" else row.getD i.toNat ""

/-- The struct `Node`: `featureName`, `featureIndex`, `label`, `isLeaf`, `children`
(the children map as a key-ascending association list). -/
inductive Node where
  | mk (featureName : String) (featureIndex : Int) (label : String) (isLeaf : Bool)
      (children : List (String × Node)) : Node

namespace Node

/-- Field `featureName`. -/
def featureName : Node → String
  | mk n _ _ _ _ => n

/-- Field `featureIndex`. -/
def featureIndex : Node → Int
  | mk _ i _ _ _ => i

/-- Field `label`. -/
def label : Node → String
  | mk _ _ l _ _ => l

/-- Field `isLeaf`. -/
def isLeaf : Node → Bool
  | mk _ _ _ b _ => b

/-- Field `children`. -/
def children : Node → List (String × Node)
  | mk _ _ _ _ c => c

/-- The node made by `new Node()` followed by `isLeaf = true; label = l`
(the constructor leaves `featureIndex = -1`, no name, no children). -/
def leaf (l : String) : Node := mk "" (-1) l true []

end Node

/-- The statement `m[k] = f (m[k])` on a `std::map<string, V>`: an absent key is first
value-initialised to `dflt` and inserted at its place in key order. -/
def mapModify {V : Type} (dflt : V) (f : V → V) (k : String) :
    List (String × V) → List (String × V)
  | [] => [(k, f dflt)]
  | (k', v) :: rest =>
    if k = k' then (k', f v) :: rest
    else if k.data < k'.data then (k, f dflt) :: (k', v) :: rest
    else (k', v) :: mapModify dflt f k rest

/-- The loop `for row in data: counts[row[labelIndex]]++`. -/
def countLabels (data : Dataset) (labelIndex : Int) : List (String × Nat) :=
  data.foldl (fun counts row => mapModify 0 (· + 1) (cell row labelIndex) counts) []

/-- The loop `for row in data: subsets[row[featureIndex]].push_back(row)`. -/
def subsetsBy (data : Dataset) (featureIndex : Int) : List (String × Dataset) :=
  data.foldl (fun subsets row => mapModify [] (· ++ [row]) (cell row featureIndex) subsets) []

/-- The loop `if (kv.second > maxCount) { maxCount = kv.second; best = kv.first; }` over a
count map, started from the empty string and `maxCount = 0`. -/
def argMaxCount (counts : List (String × Nat)) : String × Nat :=
  counts.foldl (fun best kv => if kv.2 > best.2 then (kv.1, kv.2) else best) ("", 0)

/-- Function `majorityLabel`. -/
def majorityLabel (data : Dataset) (labelIndex : Int) : String :=
  (argMaxCount (countLabels data labelIndex)).1

/-- Function `giniImpurity` with every operation exact (rational arithmetic, no
rounding): the value of the formula `1 - Σ p²`, from which the `double` the program
computes, `giniImpurityDouble`, differs by rounding errors. -/
def giniImpurity (data : Dataset) (labelIndex : Int) : ℚ :=
  if data.isEmpty then 0
  else
    (countLabels data labelIndex).foldl
      (fun gini kv =>
        let p : ℚ := (kv.2 : ℚ) / (data.length : ℚ)
        gini - p * p) 1

/-- Function `giniSplit`, in exact rational arithmetic; the double the program computes
is `giniSplitDouble`. -/
def giniSplit (data : Dataset) (featureIndex labelIndex : Int) : ℚ :=
  (subsetsBy data featureIndex).foldl
    (fun weightedGini kv =>
      let weight : ℚ := (kv.2.length : ℚ) / (data.length : ℚ)
      weightedGini + weight * giniImpurity kv.2 labelIndex) 0

/-- Function `entropy`, in exact real arithmetic (`log2` is `Real.logb 2`); the double the
program computes is `entropyDouble`. -/
noncomputable def entropy (data : Dataset) (labelIndex : Int) : ℝ :=
  if data.isEmpty then 0
  else
    (countLabels data labelIndex).foldl
      (fun entropyValue kv =>
        let p : ℝ := (kv.2 : ℝ) / (data.length : ℝ)
        if p > 0 then entropyValue - p * Real.logb 2 p else entropyValue) 0

/-- Function `informationGain`, in exact real arithmetic; the double the program computes
is `informationGainDouble`. -/
noncomputable def informationGain (data : Dataset) (featureIndex labelIndex : Int) : ℝ :=
  let totalEntropy := entropy data labelIndex
  let subsetEntropy :=
    (subsetsBy data featureIndex).foldl
      (fun acc kv =>
        let weight : ℝ := (kv.2.length : ℝ) / (data.length : ℝ)
        acc + weight * entropy kv.2 labelIndex) 0
  totalEntropy - subsetEntropy

/-- Function `splitInfo`. -/
noncomputable def splitInfo (data : Dataset) (featureIndex : Int) : ℝ :=
  entropy data featureIndex

/-- Function `gainRatio`, in exact real arithmetic; the double the program computes is
`gainRatioDouble`. -/
noncomputable def gainRatio (data : Dataset) (featureIndex labelIndex : Int) : ℝ :=
  let infoGain := informationGain data featureIndex labelIndex
  let splitInformation := splitInfo data featureIndex
  if splitInformation = 0 ∨ splitInformation < 1 / 10000000000 then 0
  else infoGain / splitInformation

/-- The body of the selection loop of `buildTree` that computes `score` for candidate `f`
(`0.0` for a metric name that is none of `gini`, `info`, `gain`), in exact real arithmetic;
the double the program computes is `scoreDouble`. -/
noncomputable def score (metric : String) (data : Dataset) (f labelIndex : Int) : ℝ :=
  if metric = "gini" then -((giniSplit data f labelIndex : ℚ) : ℝ)
  else if metric = "info" then informationGain data f labelIndex
  else if metric = "gain" then gainRatio data f labelIndex
  else 0

/-- The flag `allSame` of `buildTree`: every row carries the label of the first row. -/
def allSame (data : Dataset) (labelIndex : Int) : Bool :=
  let firstLabel := cell (data.headD []) labelIndex
  data.all (fun row => cell row labelIndex = firstLabel)

/-- The feature `f` separates the classes perfectly: every subset of the partition of
`data` by column `f` is label-pure. -/
def separates (data : Dataset) (f labelIndex : Int) : Bool :=
  (subsetsBy data f).all (fun kv => allSame kv.2 labelIndex)

/-- The initial `bestScore = -1e9`. -/
def sentinel : ℝ := -1000000000

/-- The selection loop of `buildTree`: `if (score > bestScore) { bestScore = score;
bestFeature = f; }` for each `f` in order, from the state `best = (bestScore, bestFeature)`. -/
def selectBest {S : Type} [LT S] [DecidableRel ((· < ·) : S → S → Prop)]
    (scoreAt : Int → S) : List Int → S × Int → S × Int
  | [], best => best
  | f :: fs, best =>
    if scoreAt f > best.1 then selectBest scoreAt fs (scoreAt f, f)
    else selectBest scoreAt fs best

/-- Function `buildTree`.  `scoreOf metric data f labelIndex` is the score the loop body
computes for candidate `f` and `init` the initial `bestScore`: the doubles of the program
are `scoreDouble log2` and `sentinelDouble`, their exact values `score` and `sentinel`.
The children map is filled in ascending key order, so it is the key-ascending list of
subsets with each subset replaced by its subtree. -/
def buildTree {S : Type} [LT S] [DecidableRel ((· < ·) : S → S → Prop)]
    (scoreOf : String → Dataset → Int → Int → S) (init : S)
    (data : Dataset) (featureIndices : List Int) (labelIndex : Int) (metric : String)
    (attributeNames : List String) (depth maxDepth : Int) : Node :=
  if data.isEmpty then Node.leaf "unknown"
  else
    let firstLabel := cell (data.headD []) labelIndex
    if allSame data labelIndex then Node.leaf firstLabel
    else if h : featureIndices.isEmpty ∨ depth ≥ maxDepth then
      Node.leaf (majorityLabel data labelIndex)
    else
      let bestFeature :=
        (selectBest (fun f => scoreOf metric data f labelIndex) featureIndices (init, -1)).2
      if bestFeature = -1 then Node.leaf (majorityLabel data labelIndex)
      else
        let remainingFeatures := featureIndices.filter (fun f => f ≠ bestFeature)
        Node.mk (cell attributeNames bestFeature) bestFeature "" false
          ((subsetsBy data bestFeature).map fun kv =>
            (kv.1, buildTree scoreOf init kv.2 remainingFeatures labelIndex metric
              attributeNames (depth + 1) maxDepth))
termination_by (maxDepth - depth).toNat
decreasing_by
  simp only [not_or, ge_iff_le, not_le] at h
  omega

/-- The out-of-vocabulary branch of `predict`: count the labels of the immediate leaf
children, take the most frequent, and answer `"unknown"` when that string is empty. -/
def leafVote (children : List (String × Node)) : String :=
  let labelCounts :=
    children.foldl
      (fun counts kv => if kv.2.isLeaf then mapModify 0 (· + 1) kv.2.label counts else counts) []
  let bestLabel := (argMaxCount labelCounts).1
  if bestLabel = "" then "unknown" else bestLabel

mutual
/-- Function `predict`. -/
def predict : Node → Row → String
  | Node.mk _ featureIndex label isLeaf children, sample =>
    if isLeaf then label
    else
      match predictChild children (cell sample featureIndex) sample with
      | some l => l
      | none => leafVote children
/-- The lookup `children.find(featureValue)` followed by the recursive call on the child
found; `none` when the key is absent. -/
def predictChild : List (String × Node) → String → Row → Option String
  | [], _, _ => none
  | (k, child) :: rest, featureValue, sample =>
    if k = featureValue then some (predict child sample)
    else predictChild rest featureValue sample
end

mutual
/-- The largest number of decision nodes on a path from the node downwards (a node with
`isLeaf` set ends the path, as it does in `predict`). -/
def height : Node → Nat
  | Node.mk _ _ _ isLeaf children => if isLeaf then 0 else 1 + heightMax children
/-- The largest `height` among the children. -/
def heightMax : List (String × Node) → Nat
  | [] => 0
  | (_, child) :: rest => max (height child) (heightMax rest)
end

mutual
/-- The root-to-leaf paths of a tree, each as the list of the `featureIndex` values of its
decision nodes from the root downwards. -/
def paths : Node → List (List Int)
  | Node.mk _ featureIndex _ isLeaf children =>
    if isLeaf then [[]] else (pathsIn children).map (fun p => featureIndex :: p)
/-- The root-to-leaf paths through the children. -/
def pathsIn : List (String × Node) → List (List Int)
  | [] => []
  | (_, child) :: rest => paths child ++ pathsIn rest
end

mutual
/-- The descent of `predict` restricted to exact-match children: the label of the leaf
reached together with the rows of `data` routed to that leaf (the rows that agree with
`sample` in the column of every decision node passed); `none` as soon as a decision node
has no child for the sample's value, which is where `predict` takes its fallback. -/
def descend : Node → Row → Dataset → Option (String × Dataset)
  | Node.mk _ featureIndex label isLeaf children, sample, data =>
    if isLeaf then some (label, data)
    else
      descendChild children (cell sample featureIndex) sample
        (data.filter (fun row => cell row featureIndex = cell sample featureIndex))
/-- The child lookup of `descend`. -/
def descendChild : List (String × Node) → String → Row → Dataset → Option (String × Dataset)
  | [], _, _, _ => none
  | (k, child) :: rest, featureValue, sample, data =>
    if k = featureValue then descend child sample data
    else descendChild rest featureValue sample data
end

mutual
/-- The labels of the leaves of a tree (a node with `isLeaf` set is a leaf, as it is for
`predict`). -/
def leafLabels : Node → List String
  | Node.mk _ _ label isLeaf children => if isLeaf then [label] else leafLabelsIn children
/-- The labels of the leaves below the children. -/
def leafLabelsIn : List (String × Node) → List String
  | [] => []
  | (_, child) :: rest => leafLabels child ++ leafLabelsIn rest
end

/-- Round to the nearest integer, ties to the even one. -/
def roundEven (q : ℚ) : ℤ :=
  if q - ⌊q⌋ < 1 / 2 then ⌊q⌋
  else if 1 / 2 < q - ⌊q⌋ then ⌊q⌋ + 1
  else if ⌊q⌋ % 2 = 0 then ⌊q⌋ else ⌊q⌋ + 1

/-- The `double` nearest to the exact value `x`: IEEE-754 binary64 rounding to nearest,
ties to even, that is 53 significant bits, the last one being worth
`2 ^ (⌊log2 |x|⌋ - 52)`.  Every `double` operation `+ - * /` returns `fl` of the exact
result.  The exponent range is not modelled: the values rounded here are 0 or lie between
`2^-200` and `2^40`, far from overflow and from the subnormal numbers. -/
def fl (x : ℚ) : ℚ :=
  if x = 0 then 0
  else (roundEven (x / 2 ^ (Int.log 2 |x| - 52)) : ℚ) * 2 ^ (Int.log 2 |x| - 52)

/-- A `double` result as far as `calculateAccuracy` can produce one: a finite number (a
rational that is a `double`), an infinity, or the not-a-number of IEEE-754 arithmetic.
None of them is a failure: the function returns it to its caller. -/
inductive Dbl where
  | fin (q : ℚ) : Dbl
  | posInf : Dbl
  | negInf : Dbl
  | nan : Dbl

namespace Dbl

/-- The IEEE-754 quotient `a / b` of two finite doubles, rounded by `fl`; a zero divisor
is `+0.0`, which is what the conversion of `data.size()` gives: `0.0 / 0.0` is
not-a-number and a non-zero number over zero is an infinity. -/
def ofDiv (a b : ℚ) : Dbl :=
  if b = 0 then (if a = 0 then nan else if 0 < a then posInf else negInf)
  else fin (fl (a / b))

/-- The IEEE-754 product `x * c` with a finite positive constant `c`, rounded by `fl`. -/
def scale (c : ℚ) : Dbl → Dbl
  | fin q => fin (fl (q * c))
  | posInf => posInf
  | negInf => negInf
  | nan => nan

end Dbl

/-- Function `calculateAccuracy`: the loop counts the rows predicted correctly, and the
result is `(double)correct / data.size() * 100.0`.  The C++ function has no failure path
(no `throw`, no error code, no exit). -/
def calculateAccuracy (tree : Node) (data : Dataset) (labelIndex : Int) : Dbl :=
  let correct : Nat :=
    data.foldl
      (fun correct row => if predict tree row = cell row labelIndex then correct + 1 else correct)
      0
  Dbl.scale 100 (Dbl.ofDiv (correct : ℚ) (data.length : ℚ))

/-- The summand `-(p * log2 p)` of `entropy`. -/
noncomputable def eta (p : ℝ) : ℝ := -(p * Real.logb 2 p)

/-- The lookup `m.find(k)` on a map: the value stored under `k`, if any. -/
def mapFind {V : Type} (k : String) : List (String × V) → Option V
  | [] => none
  | (k', v) :: rest => if k' = k then some v else mapFind k rest

/-- The keys of the association list are strictly ascending: it is a `std::map`. -/
def KeySorted {V : Type} (m : List (String × V)) : Prop :=
  (m.map Prod.fst).Pairwise (fun a b => a.data < b.data)

/-! ## The ordered map -/

theorem mapFind_none_of_forall_ne {V : Type} (k : String) (m : List (String × V))
    (h : ∀ kv ∈ m, kv.1 ≠ k) : mapFind k m = none := by
  induction m with
  | nil => rfl
  | cons a rest ih =>
    obtain ⟨k', v⟩ := a
    have h1 : k' ≠ k := h (k', v) (List.mem_cons_self _ _)
    simp only [mapFind, h1, if_false]
    exact ih (fun kv hkv => h kv (List.mem_cons_of_mem _ hkv))

theorem keySorted_cons {V : Type} (a : String × V) (m : List (String × V)) :
    KeySorted (a :: m) ↔ (∀ kv ∈ m, a.1.data < kv.1.data) ∧ KeySorted m := by
  simp [KeySorted, List.pairwise_cons]

theorem mapModify_fst_mem {V : Type} (d : V) (f : V → V) (k : String) (m : List (String × V))
    (kv : String × V) (h : kv ∈ mapModify d f k m) : kv.1 = k ∨ ∃ kv' ∈ m, kv'.1 = kv.1 := by
  induction m with
  | nil =>
    simp only [mapModify, List.mem_singleton] at h
    left; rw [h]
  | cons a rest ih =>
    obtain ⟨k', v⟩ := a
    simp only [mapModify] at h
    split_ifs at h with h1 h2
    · rcases List.mem_cons.1 h with h | h
      · right; exact ⟨(k', v), List.mem_cons_self _ _, by rw [h]⟩
      · right; exact ⟨kv, List.mem_cons_of_mem _ h, rfl⟩
    · rcases List.mem_cons.1 h with h | h
      · left; rw [h]
      · right; exact ⟨kv, h, rfl⟩
    · rcases List.mem_cons.1 h with h | h
      · right; exact ⟨(k', v), List.mem_cons_self _ _, by rw [h]⟩
      · rcases ih h with h | ⟨kv', h3, h4⟩
        · left; exact h
        · right; exact ⟨kv', List.mem_cons_of_mem _ h3, h4⟩

theorem mapModify_sorted {V : Type} (d : V) (f : V → V) (k : String) (m : List (String × V))
    (hm : KeySorted m) : KeySorted (mapModify d f k m) := by
  induction m with
  | nil => simp [mapModify, KeySorted]
  | cons a rest ih =>
    obtain ⟨k', v⟩ := a
    rw [keySorted_cons] at hm
    obtain ⟨hlt, hrest⟩ := hm
    simp only [mapModify]
    split_ifs with h1 h2
    · rw [keySorted_cons]; exact ⟨hlt, hrest⟩
    · rw [keySorted_cons]
      refine ⟨?_, ?_⟩
      · intro kv hkv
        rcases List.mem_cons.1 hkv with h | h
        · rw [h]; exact h2
        · exact lt_trans h2 (hlt kv h)
      · rw [keySorted_cons]; exact ⟨hlt, hrest⟩
    · rw [keySorted_cons]
      refine ⟨?_, ih hrest⟩
      intro kv hkv
      rcases mapModify_fst_mem d f k rest kv hkv with h | ⟨kv', h3, h4⟩
      · rw [h]
        rcases lt_trichotomy k.data k'.data with h5 | h5 | h5
        · exact absurd h5 h2
        · exact absurd (String.ext h5) h1
        · exact h5
      · rw [← h4]; exact hlt kv' h3

theorem mapFind_mapModify {V : Type} (d : V) (f : V → V) (k k' : String)
    (m : List (String × V)) (hm : KeySorted m) :
    mapFind k' (mapModify d f k m)
      = if k' = k then some (f ((mapFind k m).getD d)) else mapFind k' m := by
  induction m with
  | nil =>
    by_cases h : k' = k
    · simp [mapModify, mapFind, h]
    · simp [mapModify, mapFind, h, Ne.symm h]
  | cons a rest ih =>
    obtain ⟨k₀, v⟩ := a
    rw [keySorted_cons] at hm
    obtain ⟨hlt, hrest⟩ := hm
    simp only [mapModify]
    by_cases h1 : k = k₀
    · subst h1
      simp only [if_true, mapFind]
      by_cases h3 : k' = k
      · simp [h3]
      · have : ¬ k = k' := fun h => h3 h.symm
        simp [h3, this]
    · simp only [h1, if_false]
      have h1' : ¬ k₀ = k := fun h => h1 h.symm
      by_cases h2 : k.data < k₀.data
      · simp only [h2, if_true]
        have h6 : mapFind k rest = none := by
          apply mapFind_none_of_forall_ne
          intro kv hkv h7
          have := lt_trans h2 (hlt kv hkv)
          rw [h7] at this
          exact lt_irrefl _ this
        by_cases h4 : k' = k
        · subst h4
          simp [mapFind, h1', h6]
        · have : ¬ k = k' := fun h => h4 h.symm
          simp [mapFind, this, h4]
      · simp only [h2, if_false, mapFind]
        rw [ih hrest]
        by_cases h5 : k' = k
        · subst h5
          simp [h1']
        · simp [h5]

theorem mem_of_mapFind {V : Type} (k : String) (v : V) (m : List (String × V))
    (h : mapFind k m = some v) : (k, v) ∈ m := by
  induction m with
  | nil => simp [mapFind] at h
  | cons a rest ih =>
    obtain ⟨k', v'⟩ := a
    simp only [mapFind] at h
    split_ifs at h with h1
    · simp only [Option.some.injEq] at h
      subst h1; subst h
      exact List.mem_cons_self _ _
    · exact List.mem_cons_of_mem _ (ih h)

theorem mapFind_of_mem {V : Type} (k : String) (v : V) (m : List (String × V))
    (hm : KeySorted m) (h : (k, v) ∈ m) : mapFind k m = some v := by
  induction m with
  | nil => simp at h
  | cons a rest ih =>
    obtain ⟨k', v'⟩ := a
    rw [keySorted_cons] at hm
    obtain ⟨hlt, hrest⟩ := hm
    rcases List.mem_cons.1 h with h | h
    · injection h with h1 h2
      subst h1; subst h2
      simp [mapFind]
    · have h1 : ¬ k' = k := by
        intro h2
        have := hlt (k, v) h
        simp only [h2] at this
        exact lt_irrefl _ this
      simp only [mapFind, h1, if_false]
      exact ih hrest h

theorem foldl_mapModify_sorted {V R : Type} (d : V) (g : R → V → V) (key : R → String)
    (rows : List R) (m : List (String × V)) (hm : KeySorted m) :
    KeySorted (rows.foldl (fun m r => mapModify d (g r) (key r) m) m) := by
  induction rows generalizing m with
  | nil => exact hm
  | cons r rest ih => exact ih _ (mapModify_sorted d (g r) (key r) m hm)

theorem mapFind_foldl_mapModify {V R : Type} (d : V) (g : R → V → V) (key : R → String)
    (k : String) (rows : List R) (m : List (String × V)) (hm : KeySorted m) :
    mapFind k (rows.foldl (fun m r => mapModify d (g r) (key r) m) m)
      = (rows.filter (fun r => key r = k)).foldl (fun o r => some (g r (o.getD d)))
          (mapFind k m) := by
  induction rows generalizing m with
  | nil => rfl
  | cons r rest ih =>
    rw [List.foldl_cons, ih _ (mapModify_sorted d (g r) (key r) m hm),
      mapFind_mapModify d (g r) (key r) k m hm]
    by_cases h : key r = k
    · subst h
      simp
    · have h' : ¬ k = key r := fun e => h e.symm
      simp [h, h']

theorem mapModify_map {V W : Type} (h : V → W) (d : V) (f : V → V) (g : W → W)
    (hfg : ∀ v, h (f v) = g (h v)) (k : String) (m : List (String × V)) :
    (mapModify d f k m).map (fun kv => (kv.1, h kv.2))
      = mapModify (h d) g k (m.map (fun kv => (kv.1, h kv.2))) := by
  induction m with
  | nil => simp [mapModify, hfg]
  | cons a rest ih =>
    obtain ⟨k', v⟩ := a
    simp only [mapModify, List.map_cons]
    split_ifs
    · simp [hfg]
    · simp [hfg]
    · simp [ih]

/-! ## Partition by a column and label counts -/

theorem subsetsBy_sorted (data : Dataset) (f : Int) : KeySorted (subsetsBy data f) :=
  foldl_mapModify_sorted [] (fun r v => v ++ [r]) (fun r => cell r f) data []
    (by simp [KeySorted])

theorem foldl_push_option (o : Option Dataset) (l : Dataset) :
    l.foldl (fun o r => some (o.getD [] ++ [r])) o
      = if l = [] then o else some (o.getD [] ++ l) := by
  induction l generalizing o with
  | nil => rfl
  | cons r rest ih =>
    rw [List.foldl_cons, ih]
    by_cases h : rest = []
    · simp [h]
    · simp [h]

theorem mapFind_subsetsBy (data : Dataset) (f : Int) (k : String) :
    mapFind k (subsetsBy data f)
      = if data.filter (fun r => cell r f = k) = [] then none
        else some (data.filter (fun r => cell r f = k)) := by
  unfold subsetsBy
  rw [mapFind_foldl_mapModify [] (fun r v => v ++ [r]) (fun r => cell r f) k data []
    (by simp [KeySorted]), foldl_push_option]
  simp [mapFind]

theorem mem_subsetsBy_iff (data : Dataset) (f : Int) (k : String) (v : Dataset) :
    (k, v) ∈ subsetsBy data f ↔ v = data.filter (fun r => cell r f = k) ∧ v ≠ [] := by
  constructor
  · intro h
    have h1 := mapFind_of_mem k v _ (subsetsBy_sorted data f) h
    rw [mapFind_subsetsBy] at h1
    split_ifs at h1 with h2
    simp only [Option.some.injEq] at h1
    exact ⟨h1.symm, by rw [← h1]; exact h2⟩
  · rintro ⟨h1, h2⟩
    apply mem_of_mapFind
    rw [mapFind_subsetsBy, ← h1, if_neg h2]

theorem countLabels_eq_map (data : Dataset) (labelIndex : Int) :
    countLabels data labelIndex
      = (subsetsBy data labelIndex).map (fun kv => (kv.1, kv.2.length)) := by
  unfold countLabels subsetsBy
  have key : ∀ (rows : Dataset) (m : List (String × Dataset)),
      rows.foldl (fun counts row => mapModify 0 (· + 1) (cell row labelIndex) counts)
          (m.map (fun kv => (kv.1, kv.2.length)))
        = (rows.foldl (fun subsets row =>
            mapModify [] (· ++ [row]) (cell row labelIndex) subsets) m).map
            (fun kv => (kv.1, kv.2.length)) := by
    intro rows
    induction rows with
    | nil => intro m; rfl
    | cons r rest ih =>
      intro m
      rw [List.foldl_cons, List.foldl_cons, ← ih]
      congr 1
      rw [mapModify_map List.length [] (· ++ [r]) (· + 1) (by intro v; simp)]
      rfl
  exact key data []

/-! ## Sums over the partition -/

theorem foldl_add_eq_sum {α : Type} (g : α → ℝ) (l : List α) (a : ℝ) :
    l.foldl (fun acc x => acc + g x) a = a + (l.map g).sum := by
  induction l generalizing a with
  | nil => simp
  | cons x rest ih => rw [List.foldl_cons, ih, List.map_cons, List.sum_cons, add_assoc]

theorem subsetsBy_nil (f : Int) : subsetsBy [] f = [] := rfl

theorem subsetsBy_keys_nodup (data : Dataset) (f : Int) :
    ((subsetsBy data f).map Prod.fst).Nodup := by
  have h := subsetsBy_sorted data f
  unfold KeySorted at h
  exact h.imp (fun hab heq => by rw [heq] at hab; exact lt_irrefl _ hab)

theorem subsetsBy_snd (data : Dataset) (f : Int) (kv : String × Dataset)
    (h : kv ∈ subsetsBy data f) :
    kv.2 = data.filter (fun r => cell r f = kv.1) ∧ kv.2 ≠ [] :=
  (mem_subsetsBy_iff data f kv.1 kv.2).1 h

theorem sum_subsetsBy (data : Dataset) (f : Int) (g : Dataset → ℝ) (hg : g [] = 0)
    (X : Finset String) (hX : ∀ r ∈ data, cell r f ∈ X) :
    ((subsetsBy data f).map (fun kv => g kv.2)).sum
      = ∑ x ∈ X, g (data.filter (fun r => cell r f = x)) := by
  have h1 : (subsetsBy data f).map (fun kv => g kv.2)
      = ((subsetsBy data f).map Prod.fst).map
          (fun k => g (data.filter (fun r => cell r f = k))) := by
    rw [List.map_map]
    apply List.map_congr_left
    intro kv hkv
    simp only [Function.comp]
    rw [← (subsetsBy_snd data f kv hkv).1]
  rw [h1, ← List.sum_toFinset _ (subsetsBy_keys_nodup data f)]
  apply Finset.sum_subset
  · intro k hk
    rw [List.mem_toFinset, List.mem_map] at hk
    obtain ⟨kv, hkv, rfl⟩ := hk
    obtain ⟨h2, h3⟩ := subsetsBy_snd data f kv hkv
    rw [h2] at h3
    obtain ⟨r, hr⟩ := List.exists_mem_of_ne_nil _ h3
    rw [List.mem_filter] at hr
    have := hX r hr.1
    simpa using (of_decide_eq_true hr.2) ▸ this
  · intro x _ hx
    by_cases hnil : data.filter (fun r => cell r f = x) = []
    · rw [hnil, hg]
    · exfalso
      apply hx
      rw [List.mem_toFinset, List.mem_map]
      exact ⟨(x, data.filter (fun r => cell r f = x)),
        (mem_subsetsBy_iff data f x _).2 ⟨rfl, hnil⟩, rfl⟩

theorem eta_zero : eta 0 = 0 := by simp [eta]

theorem eta_one : eta 1 = 0 := by simp [eta]

theorem eta_nonneg (p : ℝ) (h0 : 0 ≤ p) (h1 : p ≤ 1) : 0 ≤ eta p := by
  unfold eta
  have : Real.logb 2 p ≤ 0 := Real.logb_nonpos (by norm_num) h0 h1
  nlinarith

theorem eta_pos (p : ℝ) (h0 : 0 < p) (h1 : p < 1) : 0 < eta p := by
  unfold eta
  have : Real.logb 2 p < 0 := Real.logb_neg (by norm_num) h0 h1
  nlinarith

theorem entropy_eq_sum (data : Dataset) (labelIndex : Int) :
    entropy data labelIndex
      = ((subsetsBy data labelIndex).map
          (fun kv => eta ((kv.2.length : ℝ) / (data.length : ℝ)))).sum := by
  unfold entropy
  by_cases hne : data = []
  · subst hne; simp [subsetsBy_nil]
  · have : data.isEmpty = false := by
      cases data with
      | nil => exact absurd rfl hne
      | cons _ _ => rfl
    rw [this, countLabels_eq_map, List.foldl_map]
    simp only [Bool.false_eq_true, if_false]
    have hstep : (fun (entropyValue : ℝ) (kv : String × Dataset) =>
          if (kv.2.length : ℝ) / (data.length : ℝ) > 0 then
            entropyValue - (kv.2.length : ℝ) / (data.length : ℝ)
              * Real.logb 2 ((kv.2.length : ℝ) / (data.length : ℝ))
          else entropyValue)
        = (fun acc kv => acc + eta ((kv.2.length : ℝ) / (data.length : ℝ))) := by
      funext e kv
      have hp : (0 : ℝ) ≤ (kv.2.length : ℝ) / (data.length : ℝ) := by positivity
      split_ifs with h
      · simp only [eta]; ring
      · have : (kv.2.length : ℝ) / (data.length : ℝ) = 0 := le_antisymm (not_lt.1 h) hp
        rw [this, eta_zero, add_zero]
    rw [hstep, foldl_add_eq_sum, zero_add]

theorem informationGain_eq (data : Dataset) (f labelIndex : Int) :
    informationGain data f labelIndex
      = entropy data labelIndex
        - ((subsetsBy data f).map
            (fun kv => (kv.2.length : ℝ) / (data.length : ℝ) * entropy kv.2 labelIndex)).sum := by
  unfold informationGain
  simp only
  rw [foldl_add_eq_sum, zero_add]

/-! ## Entropy and information gain -/

theorem allSame_of_forall (data : Dataset) (labelIndex : Int) (l : String)
    (h : ∀ row ∈ data, cell row labelIndex = l) : allSame data labelIndex = true := by
  cases data with
  | nil => rfl
  | cons r rest =>
    simp only [allSame, List.headD_cons, List.all_eq_true, decide_eq_true_eq]
    intro row hrow
    rw [h row hrow, h r (List.mem_cons_self _ _)]

theorem forall_of_allSame (data : Dataset) (labelIndex : Int)
    (h : allSame data labelIndex = true) :
    ∀ row ∈ data, cell row labelIndex = cell (data.headD []) labelIndex := by
  simpa [allSame] using h

theorem allSame_nil (labelIndex : Int) : allSame [] labelIndex = true := rfl

theorem subset_weight_bounds (data : Dataset) (f : Int) (kv : String × Dataset)
    (h : kv ∈ subsetsBy data f) :
    0 < (kv.2.length : ℝ) / (data.length : ℝ) ∧ (kv.2.length : ℝ) / (data.length : ℝ) ≤ 1 := by
  obtain ⟨h1, h2⟩ := subsetsBy_snd data f kv h
  have hpos : 0 < kv.2.length := List.length_pos.2 h2
  have hle : kv.2.length ≤ data.length := by
    rw [h1]; exact List.length_filter_le _ _
  have hn : (0 : ℝ) < (data.length : ℝ) := by
    exact_mod_cast lt_of_lt_of_le hpos hle
  have hposR : (0 : ℝ) < (kv.2.length : ℝ) := by exact_mod_cast hpos
  have hleR : (kv.2.length : ℝ) ≤ (data.length : ℝ) := by exact_mod_cast hle
  exact ⟨div_pos hposR hn, (div_le_one hn).2 hleR⟩

theorem entropy_nonneg (data : Dataset) (labelIndex : Int) : 0 ≤ entropy data labelIndex := by
  rw [entropy_eq_sum]
  apply List.sum_nonneg
  intro x hx
  rw [List.mem_map] at hx
  obtain ⟨kv, hkv, rfl⟩ := hx
  obtain ⟨h0, h1⟩ := subset_weight_bounds data labelIndex kv hkv
  exact eta_nonneg _ (le_of_lt h0) h1

theorem entropy_eq_zero_of_allSame (data : Dataset) (labelIndex : Int)
    (h : allSame data labelIndex = true) : entropy data labelIndex = 0 := by
  rw [entropy_eq_sum]
  apply List.sum_eq_zero
  intro x hx
  rw [List.mem_map] at hx
  obtain ⟨kv, hkv, rfl⟩ := hx
  obtain ⟨h1, h2⟩ := subsetsBy_snd data labelIndex kv hkv
  have hall := forall_of_allSame data labelIndex h
  have hfull : data.filter (fun r => cell r labelIndex = kv.1) = data := by
    rw [List.filter_eq_self]
    rw [h1] at h2
    obtain ⟨r, hr⟩ := List.exists_mem_of_ne_nil _ h2
    rw [List.mem_filter] at hr
    intro a ha
    have e1 := hall a ha
    have e2 := hall r hr.1
    have e3 : cell r labelIndex = kv.1 := of_decide_eq_true hr.2
    exact decide_eq_true (e1.trans (e2.symm.trans e3))
  have hlen : kv.2.length = data.length := by rw [h1, hfull]
  have hn : (data.length : ℝ) ≠ 0 := by
    have := (subset_weight_bounds data labelIndex kv hkv).1
    rw [hlen] at this
    intro h0
    rw [h0] at this
    simp at this
  rw [hlen, div_self hn, eta_one]

theorem entropy_pos_of_not_allSame (data : Dataset) (labelIndex : Int)
    (h : allSame data labelIndex = false) : 0 < entropy data labelIndex := by
  rw [entropy_eq_sum]
  have hne : data ≠ [] := by
    intro h0; rw [h0, allSame_nil] at h; exact absurd h (by decide)
  apply List.sum_pos
  · intro x hx
    rw [List.mem_map] at hx
    obtain ⟨kv, hkv, rfl⟩ := hx
    obtain ⟨h1, h2⟩ := subsetsBy_snd data labelIndex kv hkv
    obtain ⟨h0, _⟩ := subset_weight_bounds data labelIndex kv hkv
    apply eta_pos _ h0
    have hlt : kv.2.length < data.length := by
      rw [h1, List.length_filter_lt_length_iff_exists]
      by_contra hcon
      push_neg at hcon
      have : allSame data labelIndex = true :=
        allSame_of_forall data labelIndex kv.1
          (fun row hrow => of_decide_eq_true (hcon row hrow))
      rw [h] at this
      exact absurd this (by decide)
    have hn : (0 : ℝ) < (data.length : ℝ) := by
      exact_mod_cast lt_of_le_of_lt (Nat.zero_le _) hlt
    rw [div_lt_one hn]
    exact_mod_cast hlt
  · obtain ⟨r, hr⟩ := List.exists_mem_of_ne_nil _ hne
    have hmem : (cell r labelIndex, data.filter (fun x => cell x labelIndex = cell r labelIndex))
        ∈ subsetsBy data labelIndex := by
      rw [mem_subsetsBy_iff]
      refine ⟨rfl, ?_⟩
      intro h0
      have : r ∈ data.filter (fun x => cell x labelIndex = cell r labelIndex) :=
        List.mem_filter.2 ⟨hr, by simp⟩
      rw [h0] at this
      simp at this
    intro h0
    rw [List.map_eq_nil_iff] at h0
    rw [h0] at hmem
    simp at hmem

theorem subsetEntropy_nonneg (data : Dataset) (f labelIndex : Int) :
    ∀ x ∈ (subsetsBy data f).map
        (fun kv => (kv.2.length : ℝ) / (data.length : ℝ) * entropy kv.2 labelIndex),
      0 ≤ x := by
  intro x hx
  rw [List.mem_map] at hx
  obtain ⟨kv, hkv, rfl⟩ := hx
  exact mul_nonneg (le_of_lt (subset_weight_bounds data f kv hkv).1)
    (entropy_nonneg kv.2 labelIndex)

theorem informationGain_le_entropy (data : Dataset) (f labelIndex : Int) :
    informationGain data f labelIndex ≤ entropy data labelIndex := by
  rw [informationGain_eq]
  have := List.sum_nonneg (subsetEntropy_nonneg data f labelIndex)
  linarith

theorem informationGain_of_separates (data : Dataset) (f labelIndex : Int)
    (h : separates data f labelIndex = true) :
    informationGain data f labelIndex = entropy data labelIndex := by
  rw [informationGain_eq]
  have : ((subsetsBy data f).map
      (fun kv => (kv.2.length : ℝ) / (data.length : ℝ) * entropy kv.2 labelIndex)).sum = 0 := by
    apply List.sum_eq_zero
    intro x hx
    rw [List.mem_map] at hx
    obtain ⟨kv, hkv, rfl⟩ := hx
    have hs : allSame kv.2 labelIndex = true := by
      have := List.all_eq_true.1 h kv hkv
      exact this
    rw [entropy_eq_zero_of_allSame kv.2 labelIndex hs, mul_zero]
  rw [this, sub_zero]

theorem informationGain_lt_of_not_separates (data : Dataset) (f labelIndex : Int)
    (h : separates data f labelIndex = false) :
    informationGain data f labelIndex < entropy data labelIndex := by
  rw [informationGain_eq]
  have hex : ∃ kv ∈ subsetsBy data f, allSame kv.2 labelIndex = false := by
    by_contra hcon
    push_neg at hcon
    have : separates data f labelIndex = true := by
      unfold separates
      rw [List.all_eq_true]
      intro kv hkv
      have := hcon kv hkv
      simpa using this
    rw [h] at this
    exact absurd this (by decide)
  obtain ⟨kv, hkv, hs⟩ := hex
  have hpos : 0 < (kv.2.length : ℝ) / (data.length : ℝ) * entropy kv.2 labelIndex :=
    mul_pos (subset_weight_bounds data f kv hkv).1 (entropy_pos_of_not_allSame kv.2 labelIndex hs)
  have hle := List.single_le_sum (subsetEntropy_nonneg data f labelIndex) _
    (List.mem_map.2 ⟨kv, hkv, rfl⟩)
  linarith

theorem concaveOn_eta : ConcaveOn ℝ (Set.Ici (0 : ℝ)) eta := by
  have h : eta = fun p => (Real.log 2)⁻¹ • Real.negMulLog p := by
    funext p
    simp only [eta, Real.logb, Real.negMulLog, smul_eq_mul]
    ring
  rw [h]
  exact Real.concaveOn_negMulLog.smul (inv_nonneg.2 (Real.log_nonneg (by norm_num)))

theorem sum_length_filter_filter (data : Dataset) (f : Int) (P : Row → Bool)
    (X : Finset String) (hX : ∀ r ∈ data, cell r f ∈ X) :
    ∑ x ∈ X, ((data.filter (fun r => cell r f = x)).filter P).length
      = (data.filter P).length := by
  induction data with
  | nil => simp
  | cons r rest ih =>
    have hr : cell r f ∈ X := hX r (List.mem_cons_self _ _)
    have ih' := ih (fun a ha => hX a (List.mem_cons_of_mem _ ha))
    simp only [List.filter_filter] at ih' ⊢
    simp only [← List.countP_eq_length_filter, List.countP_cons] at ih' ⊢
    rw [Finset.sum_add_distrib, ih']
    congr 1
    cases hP : P r
    · simp
    · simp [Finset.sum_ite_eq, hr]

theorem sum_length_filter (data : Dataset) (f : Int)
    (X : Finset String) (hX : ∀ r ∈ data, cell r f ∈ X) :
    ∑ x ∈ X, (data.filter (fun r => cell r f = x)).length = data.length := by
  have := sum_length_filter_filter data f (fun _ => true) X hX
  simpa using this

theorem entropy_eq_finset_sum (data : Dataset) (labelIndex : Int) (Y : Finset String)
    (hY : ∀ r ∈ data, cell r labelIndex ∈ Y) :
    entropy data labelIndex
      = ∑ y ∈ Y, eta (((data.filter (fun r => cell r labelIndex = y)).length : ℝ)
          / (data.length : ℝ)) := by
  rw [entropy_eq_sum]
  exact sum_subsetsBy data labelIndex (fun v => eta ((v.length : ℝ) / (data.length : ℝ)))
    (by simp [eta_zero]) Y hY

/-- Splitting never increases entropy: the size-weighted entropy of the subsets of a
partition is at most the entropy of the whole (Jensen's inequality for `eta`). -/
theorem subsetEntropy_le_entropy (data : Dataset) (f labelIndex : Int) (hne : data ≠ []) :
    ((subsetsBy data f).map
        (fun kv => (kv.2.length : ℝ) / (data.length : ℝ) * entropy kv.2 labelIndex)).sum
      ≤ entropy data labelIndex := by
  have hn0 : 0 < data.length := List.length_pos.2 hne
  have hn : (0 : ℝ) < (data.length : ℝ) := by exact_mod_cast hn0
  have hX : ∀ r ∈ data, cell r f ∈ (data.map (fun r => cell r f)).toFinset := by
    intro r hr
    rw [List.mem_toFinset, List.mem_map]
    exact ⟨r, hr, rfl⟩
  have hY : ∀ r ∈ data, cell r labelIndex ∈ (data.map (fun r => cell r labelIndex)).toFinset := by
    intro r hr
    rw [List.mem_toFinset, List.mem_map]
    exact ⟨r, hr, rfl⟩
  generalize (data.map (fun r => cell r f)).toFinset = X at hX
  generalize (data.map (fun r => cell r labelIndex)).toFinset = Y at hY
  have hS := sum_subsetsBy data f
    (fun v => (v.length : ℝ) / (data.length : ℝ) * entropy v labelIndex) (by simp) X hX
  have hE : ∀ x, entropy (data.filter (fun r => cell r f = x)) labelIndex
      = ∑ y ∈ Y, eta ((((data.filter (fun r => cell r f = x)).filter
            (fun r => cell r labelIndex = y)).length : ℝ)
          / ((data.filter (fun r => cell r f = x)).length : ℝ)) :=
    fun x => entropy_eq_finset_sum _ labelIndex Y (fun r hr => hY r (List.mem_filter.1 hr).1)
  rw [entropy_eq_finset_sum data labelIndex Y hY, hS]
  simp only [hE, Finset.mul_sum]
  rw [Finset.sum_comm]
  apply Finset.sum_le_sum
  intro y _
  have hJ := concaveOn_eta.le_map_sum (t := X)
    (w := fun x => ((data.filter (fun r => cell r f = x)).length : ℝ) / (data.length : ℝ))
    (p := fun x => (((data.filter (fun r => cell r f = x)).filter
            (fun r => cell r labelIndex = y)).length : ℝ)
          / ((data.filter (fun r => cell r f = x)).length : ℝ))
    (fun x _ => by positivity)
    (by
      rw [← Finset.sum_div, div_eq_one_iff_eq (ne_of_gt hn)]
      exact_mod_cast sum_length_filter data f X hX)
    (fun x _ => by
      rw [Set.mem_Ici]
      positivity)
  simp only [smul_eq_mul] at hJ
  refine le_trans hJ (le_of_eq ?_)
  congr 1
  have hterm : ∀ x ∈ X,
      ((data.filter (fun r => cell r f = x)).length : ℝ) / (data.length : ℝ)
        * ((((data.filter (fun r => cell r f = x)).filter
            (fun r => cell r labelIndex = y)).length : ℝ)
          / ((data.filter (fun r => cell r f = x)).length : ℝ))
      = (((data.filter (fun r => cell r f = x)).filter
            (fun r => cell r labelIndex = y)).length : ℝ) / (data.length : ℝ) := by
    intro x _
    by_cases h0 : (data.filter (fun r => cell r f = x)).length = 0
    · have : ((data.filter (fun r => cell r f = x)).filter
          (fun r => cell r labelIndex = y)).length = 0 := by
        have := List.length_filter_le (fun r => decide (cell r labelIndex = y))
          (data.filter (fun r => cell r f = x))
        omega
      rw [h0, this]
      simp
    · have : ((data.filter (fun r => cell r f = x)).length : ℝ) ≠ 0 := by exact_mod_cast h0
      field_simp
      ring
  rw [Finset.sum_congr rfl hterm, ← Finset.sum_div]
  congr 1
  exact_mod_cast sum_length_filter_filter data f (fun r => cell r labelIndex = y) X hX

/-! ## Unfolding `buildTree` -/

section Build

variable {S : Type} [LT S] [DecidableRel ((· < ·) : S → S → Prop)]
  (scoreOf : String → Dataset → Int → Int → S) (init : S)

theorem buildTree_empty (featureIndices : List Int) (labelIndex : Int) (metric : String)
    (attributeNames : List String) (depth maxDepth : Int) :
    buildTree scoreOf init [] featureIndices labelIndex metric attributeNames depth maxDepth
      = Node.leaf "unknown" := by
  rw [buildTree]; simp

theorem buildTree_allSame (data : Dataset) (featureIndices : List Int) (labelIndex : Int)
    (metric : String) (attributeNames : List String) (depth maxDepth : Int)
    (hne : data ≠ []) (hsame : allSame data labelIndex = true) :
    buildTree scoreOf init data featureIndices labelIndex metric attributeNames depth maxDepth
      = Node.leaf (cell (data.headD []) labelIndex) := by
  rw [buildTree]
  simp [hne, hsame]

theorem buildTree_cutoff (data : Dataset) (featureIndices : List Int) (labelIndex : Int)
    (metric : String) (attributeNames : List String) (depth maxDepth : Int)
    (hne : data ≠ []) (hsame : allSame data labelIndex = false)
    (hcut : featureIndices = [] ∨ maxDepth ≤ depth) :
    buildTree scoreOf init data featureIndices labelIndex metric attributeNames depth maxDepth
      = Node.leaf (majorityLabel data labelIndex) := by
  rw [buildTree]
  have : featureIndices = [] ∨ depth ≥ maxDepth := hcut
  simp only [List.isEmpty_eq_true, hne, hsame, Bool.false_eq_true, if_false, dif_pos this]

theorem buildTree_split (data : Dataset) (featureIndices : List Int) (labelIndex : Int)
    (metric : String) (attributeNames : List String) (depth maxDepth : Int)
    (hne : data ≠ []) (hsame : allSame data labelIndex = false)
    (hfeat : featureIndices ≠ []) (hdepth : depth < maxDepth) :
    buildTree scoreOf init data featureIndices labelIndex metric attributeNames depth maxDepth
      = if (selectBest (fun f => scoreOf metric data f labelIndex) featureIndices
            (init, -1)).2 = -1 then Node.leaf (majorityLabel data labelIndex)
        else
          Node.mk
            (cell attributeNames (selectBest (fun f => scoreOf metric data f labelIndex)
              featureIndices (init, -1)).2)
            (selectBest (fun f => scoreOf metric data f labelIndex) featureIndices (init, -1)).2
            "" false
            ((subsetsBy data (selectBest (fun f => scoreOf metric data f labelIndex)
                featureIndices (init, -1)).2).map fun kv =>
              (kv.1, buildTree scoreOf init kv.2
                (featureIndices.filter (fun f => f ≠ (selectBest
                  (fun f => scoreOf metric data f labelIndex) featureIndices (init, -1)).2))
                labelIndex metric attributeNames (depth + 1) maxDepth)) := by
  rw [buildTree]
  have : ¬ (featureIndices = [] ∨ depth ≥ maxDepth) := by
    rintro (h | h)
    · exact hfeat h
    · exact absurd hdepth (not_lt.2 h)
  simp only [List.isEmpty_eq_true, hne, hsame, Bool.false_eq_true, if_false, dif_neg this]

/-- Induction along the recursion of `buildTree`: a property of (dataset, candidates,
depth, tree) that holds for the four kinds of leaf and passes from the subtrees of a
decision node to the node holds for every tree built. -/
theorem buildTree_induction (labelIndex : Int) (metric : String)
    (attributeNames : List String) (maxDepth : Int)
    (P : Dataset → List Int → Int → Node → Prop)
    (hempty : ∀ feats depth, P [] feats depth (Node.leaf "unknown"))
    (hsame : ∀ data feats depth, data ≠ [] → allSame data labelIndex = true →
      P data feats depth (Node.leaf (cell (data.headD []) labelIndex)))
    (hcut : ∀ data feats depth, data ≠ [] → allSame data labelIndex = false →
      (feats = [] ∨ maxDepth ≤ depth) →
      P data feats depth (Node.leaf (majorityLabel data labelIndex)))
    (hfallback : ∀ data feats depth, data ≠ [] → allSame data labelIndex = false →
      feats ≠ [] → depth < maxDepth →
      (selectBest (fun f => scoreOf metric data f labelIndex) feats (init, -1)).2 = -1 →
      P data feats depth (Node.leaf (majorityLabel data labelIndex)))
    (hnode : ∀ data feats depth best, data ≠ [] → allSame data labelIndex = false →
      feats ≠ [] → depth < maxDepth →
      best = (selectBest (fun f => scoreOf metric data f labelIndex) feats (init, -1)).2 →
      best ≠ -1 →
      (∀ kv ∈ subsetsBy data best,
        P kv.2 (feats.filter (fun f => f ≠ best)) (depth + 1)
          (buildTree scoreOf init kv.2 (feats.filter (fun f => f ≠ best)) labelIndex metric
            attributeNames (depth + 1) maxDepth)) →
      P data feats depth
        (Node.mk (cell attributeNames best) best "" false
          ((subsetsBy data best).map fun kv =>
            (kv.1, buildTree scoreOf init kv.2 (feats.filter (fun f => f ≠ best)) labelIndex
              metric attributeNames (depth + 1) maxDepth))))
    (data : Dataset) (feats : List Int) (depth : Int) :
    P data feats depth
      (buildTree scoreOf init data feats labelIndex metric attributeNames depth maxDepth) := by
  generalize hn : (maxDepth - depth).toNat = n
  induction n using Nat.strong_induction_on generalizing data feats depth with
  | _ n ih =>
    by_cases hne : data = []
    · subst hne
      rw [buildTree_empty]
      exact hempty feats depth
    · cases hs : allSame data labelIndex with
      | true =>
        rw [buildTree_allSame scoreOf init data feats labelIndex metric attributeNames depth
          maxDepth hne hs]
        exact hsame data feats depth hne hs
      | false =>
        by_cases hc : feats = [] ∨ maxDepth ≤ depth
        · rw [buildTree_cutoff scoreOf init data feats labelIndex metric attributeNames depth
            maxDepth hne hs hc]
          exact hcut data feats depth hne hs hc
        · rw [not_or, not_le] at hc
          rw [buildTree_split scoreOf init data feats labelIndex metric attributeNames depth
            maxDepth hne hs hc.1 hc.2]
          split_ifs with hb
          · exact hfallback data feats depth hne hs hc.1 hc.2 hb
          · refine hnode data feats depth _ hne hs hc.1 hc.2 rfl hb ?_
            intro kv _
            exact ih (maxDepth - (depth + 1)).toNat (by omega) kv.2 _ (depth + 1) rfl

theorem selectBest_snd_mem (scoreAt : Int → S) (feats : List Int) (best : S × Int) :
    (selectBest scoreAt feats best).2 = best.2 ∨ (selectBest scoreAt feats best).2 ∈ feats := by
  induction feats generalizing best with
  | nil => left; rfl
  | cons f fs ih =>
    simp only [selectBest]
    split_ifs
    · rcases ih (scoreAt f, f) with h | h
      · right; rw [h]; exact List.mem_cons_self _ _
      · right; exact List.mem_cons_of_mem _ h
    · rcases ih best with h | h
      · left; exact h
      · right; exact List.mem_cons_of_mem _ h

theorem selectBest_no_update (scoreAt : Int → S) (feats : List Int) (best : S × Int)
    (h : ∀ g ∈ feats, ¬ best.1 < scoreAt g) : selectBest scoreAt feats best = best := by
  induction feats with
  | nil => rfl
  | cons g gs ih =>
    have h1 : ¬ scoreAt g > best.1 := h g (List.mem_cons_self _ _)
    simp only [selectBest, h1, if_false]
    exact ih (fun x hx => h x (List.mem_cons_of_mem _ hx))

theorem selectBest_first_max (scoreAt : Int → S) (pre post : List Int) (f : Int)
    (best : S × Int) (hbest : best.1 < scoreAt f)
    (hpre : ∀ g ∈ pre, scoreAt g < scoreAt f)
    (hpost : ∀ g ∈ post, ¬ scoreAt f < scoreAt g) :
    selectBest scoreAt (pre ++ f :: post) best = (scoreAt f, f) := by
  induction pre generalizing best with
  | nil =>
    have h1 : scoreAt f > best.1 := hbest
    simp only [List.nil_append, selectBest, h1, if_true]
    exact selectBest_no_update scoreAt post (scoreAt f, f) hpost
  | cons g gs ih =>
    simp only [List.cons_append, selectBest]
    split_ifs
    · exact ih (scoreAt g, g) (hpre g (List.mem_cons_self _ _))
        (fun x hx => hpre x (List.mem_cons_of_mem _ hx))
    · exact ih best hbest (fun x hx => hpre x (List.mem_cons_of_mem _ hx))

theorem countLabels_of_forall (data : Dataset) (labelIndex : Int) (l : String)
    (hne : data ≠ []) (h : ∀ row ∈ data, cell row labelIndex = l) :
    countLabels data labelIndex = [(l, data.length)] := by
  have key : ∀ (rows : Dataset) (n : Nat), (∀ row ∈ rows, cell row labelIndex = l) →
      rows.foldl (fun counts row => mapModify 0 (· + 1) (cell row labelIndex) counts) [(l, n)]
        = [(l, n + rows.length)] := by
    intro rows
    induction rows with
    | nil => intro n _; rfl
    | cons r rest ih =>
      intro n hr
      rw [List.foldl_cons, hr r (List.mem_cons_self _ _)]
      simp only [mapModify, if_true]
      rw [ih (n + 1) (fun row hrow => hr row (List.mem_cons_of_mem _ hrow))]
      simp only [List.length_cons]
      congr 2
      omega
  cases data with
  | nil => exact absurd rfl hne
  | cons r rest =>
    unfold countLabels
    rw [List.foldl_cons, h r (List.mem_cons_self _ _)]
    simp only [mapModify]
    rw [key rest (0 + 1) (fun row hrow => h row (List.mem_cons_of_mem _ hrow))]
    simp only [List.length_cons]
    congr 2
    omega

theorem majorityLabel_of_forall (data : Dataset) (labelIndex : Int) (l : String)
    (hne : data ≠ []) (h : ∀ row ∈ data, cell row labelIndex = l) :
    majorityLabel data labelIndex = l := by
  unfold majorityLabel
  rw [countLabels_of_forall data labelIndex l hne h]
  have : 0 < data.length := List.length_pos.2 hne
  simp [argMaxCount, this]

end Build

/-! ## Unfolding `predict` -/

theorem predictChild_eq (children : List (String × Node)) (featureValue : String)
    (sample : Row) :
    predictChild children featureValue sample
      = (mapFind featureValue children).map (fun child => predict child sample) := by
  induction children with
  | nil => simp [predictChild, mapFind]
  | cons a rest ih =>
    obtain ⟨k, child⟩ := a
    simp only [predictChild, mapFind]
    split_ifs
    · rfl
    · exact ih

theorem predict_leaf (n : String) (i : Int) (l : String) (children : List (String × Node))
    (sample : Row) : predict (Node.mk n i l true children) sample = l := by
  simp [predict]

theorem predict_found (n : String) (i : Int) (l : String) (children : List (String × Node))
    (sample : Row) (child : Node) (h : mapFind (cell sample i) children = some child) :
    predict (Node.mk n i l false children) sample = predict child sample := by
  simp [predict, predictChild_eq, h]

theorem predict_absent (n : String) (i : Int) (l : String) (children : List (String × Node))
    (sample : Row) (h : mapFind (cell sample i) children = none) :
    predict (Node.mk n i l false children) sample = leafVote children := by
  simp [predict, predictChild_eq, h]

theorem leafVote_no_leaf (children : List (String × Node))
    (hnone : ∀ kv ∈ children, kv.2.isLeaf = false) : leafVote children = "unknown" := by
  have key : ∀ (m : List (String × Nat)),
      children.foldl (fun counts kv =>
        if kv.2.isLeaf then mapModify 0 (· + 1) kv.2.label counts else counts) m = m := by
    induction children with
    | nil => intro m; rfl
    | cons a rest ih =>
      intro m
      rw [List.foldl_cons, hnone a (List.mem_cons_self _ _)]
      simp only [Bool.false_eq_true, if_false]
      exact ih (fun kv hkv => hnone kv (List.mem_cons_of_mem _ hkv)) m
  simp only [leafVote, key]
  rfl

/-! ## The vote among the leaf children -/

theorem argMaxCount_fold (m : List (String × Nat)) (b : String × Nat) :
    (m.foldl (fun best kv => if kv.2 > best.2 then (kv.1, kv.2) else best) b = b
        ∨ m.foldl (fun best kv => if kv.2 > best.2 then (kv.1, kv.2) else best) b ∈ m)
      ∧ b.2 ≤ (m.foldl (fun best kv => if kv.2 > best.2 then (kv.1, kv.2) else best) b).2
      ∧ ∀ kv ∈ m,
          kv.2 ≤ (m.foldl (fun best kv => if kv.2 > best.2 then (kv.1, kv.2) else best) b).2 := by
  induction m generalizing b with
  | nil => simp
  | cons a rest ih =>
    rw [List.foldl_cons]
    by_cases h : a.2 > b.2
    · simp only [h, if_true]
      obtain ⟨h1, h2, h3⟩ := ih (a.1, a.2)
      refine ⟨?_, ?_, ?_⟩
      · right
        rcases h1 with h1 | h1
        · rw [h1]; exact List.mem_cons_self _ _
        · exact List.mem_cons_of_mem _ h1
      · exact le_trans (le_of_lt h) h2
      · intro kv hkv
        rcases List.mem_cons.1 hkv with e | e
        · rw [e]; exact h2
        · exact h3 kv e
    · simp only [h, if_false]
      obtain ⟨h1, h2, h3⟩ := ih b
      refine ⟨?_, h2, ?_⟩
      · rcases h1 with h1 | h1
        · left; exact h1
        · right; exact List.mem_cons_of_mem _ h1
      · intro kv hkv
        rcases List.mem_cons.1 hkv with e | e
        · rw [e]; exact le_trans (not_lt.1 h) h2
        · exact h3 kv e

/-- The winner of the `maxCount` loop over a count map with a positive entry is an entry
of the map and no entry has a larger count. -/
theorem argMaxCount_mem (m : List (String × Nat)) (kv₀ : String × Nat) (h₀ : kv₀ ∈ m)
    (hpos : 0 < kv₀.2) :
    argMaxCount m ∈ m ∧ ∀ kv ∈ m, kv.2 ≤ (argMaxCount m).2 := by
  obtain ⟨h1, _, h3⟩ := argMaxCount_fold m ("", 0)
  refine ⟨?_, h3⟩
  rcases h1 with h1 | h1
  · have := h3 kv₀ h₀
    change kv₀.2 ≤ (argMaxCount m).2 at this
    have e : (argMaxCount m).2 = 0 := by
      change (m.foldl (fun best kv => if kv.2 > best.2 then (kv.1, kv.2) else best) ("", 0)).2 = 0
      rw [h1]
    omega
  · exact h1

theorem foldl_incr_option (o : Option Nat) (l : List String) :
    l.foldl (fun o _ => some (o.getD 0 + 1)) o
      = if l = [] then o else some (o.getD 0 + l.length) := by
  induction l generalizing o with
  | nil => rfl
  | cons r rest ih =>
    rw [List.foldl_cons, ih]
    by_cases h : rest = []
    · simp [h]
    · simp [h]; omega

/-- The label-count map of `leafVote` holds, for each label, the number of immediate leaf
children carrying it, and no entry for a label carried by none. -/
theorem leafVote_counts (children : List (String × Node)) (l : String) :
    KeySorted (children.foldl (fun counts kv =>
        if kv.2.isLeaf then mapModify 0 (· + 1) kv.2.label counts else counts) [])
      ∧ mapFind l (children.foldl (fun counts kv =>
          if kv.2.isLeaf then mapModify 0 (· + 1) kv.2.label counts else counts) [])
        = if (children.filter (fun kv => kv.2.isLeaf && decide (kv.2.label = l))).length = 0
          then none
          else some (children.filter (fun kv => kv.2.isLeaf && decide (kv.2.label = l))).length := by
  have hfold : ∀ (cs : List (String × Node)) (m : List (String × Nat)),
      cs.foldl (fun counts kv =>
          if kv.2.isLeaf then mapModify 0 (· + 1) kv.2.label counts else counts) m
        = ((cs.filter (fun kv => kv.2.isLeaf)).map (fun kv => kv.2.label)).foldl
            (fun counts lab => mapModify 0 (fun v => v + 1) lab counts) m := by
    intro cs
    induction cs with
    | nil => intro m; rfl
    | cons a rest ih =>
      intro m
      rw [List.foldl_cons]
      cases ha : a.2.isLeaf
      · simp only [Bool.false_eq_true, if_false, List.filter_cons, ha]
        exact ih m
      · simp only [if_true, List.filter_cons, ha, List.map_cons, List.foldl_cons]
        exact ih _
  rw [hfold]
  refine ⟨foldl_mapModify_sorted 0 (fun _ v => v + 1) (fun lab => lab) _ [] (by simp [KeySorted]), ?_⟩
  rw [mapFind_foldl_mapModify 0 (fun _ v => v + 1) (fun lab => lab) l _ [] (by simp [KeySorted]),
    foldl_incr_option]
  have hlen : (((children.filter (fun kv => kv.2.isLeaf)).map (fun kv => kv.2.label)).filter
        (fun lab => decide (lab = l))).length
      = (children.filter (fun kv => kv.2.isLeaf && decide (kv.2.label = l))).length := by
    rw [List.filter_map, List.length_map, List.filter_filter]
    congr 1
    apply List.filter_congr
    intro kv _
    simp [Bool.and_comm]
  by_cases h0 : (children.filter (fun kv => kv.2.isLeaf && decide (kv.2.label = l))).length = 0
  · have : ((children.filter (fun kv => kv.2.isLeaf)).map (fun kv => kv.2.label)).filter
        (fun lab => decide (lab = l)) = [] := by
      rw [← List.length_eq_zero, hlen]; exact h0
    simp [this, h0, mapFind]
  · have : ((children.filter (fun kv => kv.2.isLeaf)).map (fun kv => kv.2.label)).filter
        (fun lab => decide (lab = l)) ≠ [] := by
      rw [Ne, ← List.length_eq_zero, hlen]; exact h0
    rw [if_neg this, if_neg h0, hlen]
    simp [mapFind]

/-- What the out-of-vocabulary branch of `predict` computes when some immediate child is
a leaf: with `best` a label carried by the largest number of immediate leaf children, the
answer is `best`, except that it is `"unknown"` when `best` is the empty string. -/
theorem predict_fallback_vote (node : Node) (sample : Row)
    (hnode : node.isLeaf = false)
    (habsent : mapFind (cell sample node.featureIndex) node.children = none)
    (hleaf : ∃ kv ∈ node.children, kv.2.isLeaf = true) :
    ∃ best : String,
      (∃ kv ∈ node.children, kv.2.isLeaf = true ∧ kv.2.label = best)
      ∧ (∀ l, (node.children.filter (fun kv => kv.2.isLeaf && decide (kv.2.label = l))).length
            ≤ (node.children.filter
                (fun kv => kv.2.isLeaf && decide (kv.2.label = best))).length)
      ∧ predict node sample = if best = "" then "unknown" else best := by
  obtain ⟨n, i, lab, b, children⟩ := node
  change b = false at hnode
  change mapFind (cell sample i) children = none at habsent
  change ∃ kv ∈ children, kv.2.isLeaf = true at hleaf
  change ∃ best : String,
      (∃ kv ∈ children, kv.2.isLeaf = true ∧ kv.2.label = best)
      ∧ (∀ l, (children.filter (fun kv => kv.2.isLeaf && decide (kv.2.label = l))).length
            ≤ (children.filter (fun kv => kv.2.isLeaf && decide (kv.2.label = best))).length)
      ∧ predict (Node.mk n i lab b children) sample = if best = "" then "unknown" else best
  subst hnode
  rw [predict_absent n i lab children sample habsent]
  generalize hm : children.foldl (fun counts kv =>
      if kv.2.isLeaf then mapModify 0 (· + 1) kv.2.label counts else counts) [] = m
  have hcounts : ∀ l, KeySorted m ∧ mapFind l m
      = if (children.filter (fun kv => kv.2.isLeaf && decide (kv.2.label = l))).length = 0
        then none
        else some (children.filter (fun kv => kv.2.isLeaf && decide (kv.2.label = l))).length := by
    intro l; rw [← hm]; exact leafVote_counts children l
  have hvote : leafVote children
      = if (argMaxCount m).1 = "" then "unknown" else (argMaxCount m).1 := by
    simp only [leafVote, hm]
  obtain ⟨kv₀, hkv₀, hleaf₀⟩ := hleaf
  have hpos₀ : (children.filter
      (fun kv => kv.2.isLeaf && decide (kv.2.label = kv₀.2.label))).length ≠ 0 := by
    rw [Ne, List.length_eq_zero]
    intro h0
    have : kv₀ ∈ children.filter (fun kv => kv.2.isLeaf && decide (kv.2.label = kv₀.2.label)) :=
      List.mem_filter.2 ⟨hkv₀, by simp [hleaf₀]⟩
    rw [h0] at this
    simp at this
  have hmem₀ := mem_of_mapFind _ _ m (by rw [(hcounts kv₀.2.label).2, if_neg hpos₀])
  obtain ⟨hbest, hmax⟩ := argMaxCount_mem m _ hmem₀ (Nat.pos_of_ne_zero hpos₀)
  have hfind := mapFind_of_mem (argMaxCount m).1 (argMaxCount m).2 m (hcounts "").1 hbest
  rw [(hcounts (argMaxCount m).1).2] at hfind
  split_ifs at hfind with hz
  simp only [Option.some.injEq] at hfind
  refine ⟨(argMaxCount m).1, ?_, ?_, hvote⟩
  · have hne : children.filter
        (fun kv => kv.2.isLeaf && decide (kv.2.label = (argMaxCount m).1)) ≠ [] := by
      rw [Ne, ← List.length_eq_zero]; exact hz
    obtain ⟨kv, hkv⟩ := List.exists_mem_of_ne_nil _ hne
    rw [List.mem_filter] at hkv
    simp only [Bool.and_eq_true, decide_eq_true_eq] at hkv
    exact ⟨kv, hkv.1, hkv.2.1, hkv.2.2⟩
  · intro l
    by_cases hl : (children.filter
        (fun kv => kv.2.isLeaf && decide (kv.2.label = l))).length = 0
    · rw [hl]; exact Nat.zero_le _
    · have hmem := mem_of_mapFind l _ m (by rw [(hcounts l).2, if_neg hl])
      have := hmax _ hmem
      rw [hfind]
      exact this

/-! ## Exact-match descent -/

theorem mapFind_map {V W : Type} (g : V → W) (k : String) (m : List (String × V)) :
    mapFind k (m.map (fun kv => (kv.1, g kv.2))) = (mapFind k m).map g := by
  induction m with
  | nil => rfl
  | cons a rest ih =>
    obtain ⟨k', v⟩ := a
    simp only [List.map_cons, mapFind]
    split_ifs
    · rfl
    · exact ih

theorem descendChild_eq (children : List (String × Node)) (featureValue : String)
    (sample : Row) (data : Dataset) :
    descendChild children featureValue sample data
      = (mapFind featureValue children).bind (fun child => descend child sample data) := by
  induction children with
  | nil => simp [descendChild, mapFind]
  | cons a rest ih =>
    obtain ⟨k, child⟩ := a
    simp only [descendChild, mapFind]
    split_ifs
    · rfl
    · exact ih

theorem descend_leaf (l : String) (sample : Row) (data : Dataset) :
    descend (Node.leaf l) sample data = some (l, data) := by
  simp [Node.leaf, descend]

theorem predict_leaf_node (l : String) (sample : Row) : predict (Node.leaf l) sample = l :=
  predict_leaf _ _ _ _ _

theorem descend_found (n : String) (i : Int) (l : String) (children : List (String × Node))
    (sample : Row) (data : Dataset) (child : Node)
    (h : mapFind (cell sample i) children = some child) :
    descend (Node.mk n i l false children) sample data
      = descend child sample (data.filter (fun row => cell row i = cell sample i)) := by
  simp [descend, descendChild_eq, h]

/-! ## A worked example -/

/-- The tree built from the rows `(a,"")`, `(b,"")`, `(c,x)` with the single candidate
column 0, label column 1 and the metric `gini`. -/
theorem buildTree_three_rows :
    buildTree score sentinel [["a", ""], ["b", ""], ["c", "x"]] [0] 1 "gini" ["A", "L"] 0 8
      = Node.mk "A" 0 "" false
          [("a", Node.leaf ""), ("b", Node.leaf ""), ("c", Node.leaf "x")] := by
  have h1 : subsetsBy [["a", ""], ["b", ""], ["c", "x"]] 0
      = [("a", [["a", ""]]), ("b", [["b", ""]]), ("c", [["c", "x"]])] := by decide
  have h2 : countLabels [["a", ""]] 1 = [("", 1)] := by decide
  have h3 : countLabels [["b", ""]] 1 = [("", 1)] := by decide
  have h4 : countLabels [["c", "x"]] 1 = [("x", 1)] := by decide
  have hg : giniSplit [["a", ""], ["b", ""], ["c", "x"]] 0 1 = 0 := by
    simp [giniSplit, h1, giniImpurity, h2, h3, h4]
  have hs : selectBest (fun f => score "gini" [["a", ""], ["b", ""], ["c", "x"]] f 1) [0]
      (sentinel, -1) = (0, 0) := by
    simp [selectBest, score, hg, sentinel]
  rw [buildTree_split score sentinel _ _ _ _ _ _ _ (by decide) (by decide) (by decide)
    (by decide), hs]
  simp only [h1, List.map_cons, List.map_nil]
  rw [buildTree_allSame score sentinel [["a", ""]] _ _ _ _ _ _ (by decide) (by decide),
    buildTree_allSame score sentinel [["b", ""]] _ _ _ _ _ _ (by decide) (by decide),
    buildTree_allSame score sentinel [["c", "x"]] _ _ _ _ _ _ (by decide) (by decide)]
  rfl

/-! ## Height and paths -/

theorem heightMax_le (children : List (String × Node)) (n : Nat)
    (h : ∀ kv ∈ children, height kv.2 ≤ n) : heightMax children ≤ n := by
  induction children with
  | nil => simp [heightMax]
  | cons a rest ih =>
    obtain ⟨k, child⟩ := a
    simp only [heightMax]
    exact max_le (h (k, child) (List.mem_cons_self _ _))
      (ih (fun kv hkv => h kv (List.mem_cons_of_mem _ hkv)))

theorem mem_pathsIn (children : List (String × Node)) (p : List Int) :
    p ∈ pathsIn children ↔ ∃ kv ∈ children, p ∈ paths kv.2 := by
  induction children with
  | nil => simp [pathsIn]
  | cons a rest ih =>
    obtain ⟨k, child⟩ := a
    simp only [pathsIn, List.mem_append, ih, List.mem_cons, exists_eq_or_imp]

theorem height_leaf (l : String) : height (Node.leaf l) = 0 := by
  simp [Node.leaf, height]

theorem paths_leaf (l : String) : paths (Node.leaf l) = [[]] := by
  simp [Node.leaf, paths]

theorem height_decision (n : String) (i : Int) (l : String) (children : List (String × Node)) :
    height (Node.mk n i l false children) = 1 + heightMax children := by
  simp [height]

theorem mem_paths_decision (n : String) (i : Int) (l : String)
    (children : List (String × Node)) (p : List Int) :
    p ∈ paths (Node.mk n i l false children)
      ↔ ∃ q, (∃ kv ∈ children, q ∈ paths kv.2) ∧ p = i :: q := by
  simp only [paths, Bool.false_eq_true, if_false, List.mem_map, mem_pathsIn]
  constructor
  · rintro ⟨q, hq, rfl⟩; exact ⟨q, hq, rfl⟩
  · rintro ⟨q, hq, rfl⟩; exact ⟨q, hq, rfl⟩

/-! ## Properties of the tree builder and of prediction -/

/-- C1: when every row of the dataset carries the same value `l` in the label column, then
for every candidate list, metric name, depth and depth limit (and every way of scoring)
`buildTree` returns a single leaf, a node with `isLeaf` set and no children, and for a
non-empty dataset the label of that leaf is `l`. -/
theorem buildTree_uniform_label {S : Type} [LT S] [DecidableRel ((· < ·) : S → S → Prop)]
    (scoreOf : String → Dataset → Int → Int → S) (init : S)
    (data : Dataset) (featureIndices : List Int) (labelIndex : Int) (metric : String)
    (attributeNames : List String) (depth maxDepth : Int) (l : String)
    (h : ∀ row ∈ data, cell row labelIndex = l) :
    (buildTree scoreOf init data featureIndices labelIndex metric attributeNames depth
        maxDepth).isLeaf = true
      ∧ (buildTree scoreOf init data featureIndices labelIndex metric attributeNames depth
          maxDepth).children = []
      ∧ (data ≠ [] →
          buildTree scoreOf init data featureIndices labelIndex metric attributeNames depth
            maxDepth = Node.leaf l) := by
  cases data with
  | nil =>
    rw [buildTree_empty]
    exact ⟨rfl, rfl, fun hne => absurd rfl hne⟩
  | cons r rest =>
    rw [buildTree_allSame scoreOf init (r :: rest) featureIndices labelIndex metric
      attributeNames depth maxDepth (List.cons_ne_nil _ _) (allSame_of_forall _ _ l h)]
    refine ⟨rfl, rfl, fun _ => ?_⟩
    rw [List.headD_cons, h r (List.mem_cons_self _ _)]

/-- C1, at the two-row dataset `(a1,b1,yes), (a2,b2,yes)` with the metric `info`. -/
theorem buildTree_uniform_label_witness :
    (∀ row ∈ ([["a1", "b1", "yes"], ["a2", "b2", "yes"]] : Dataset), cell row 2 = "yes")
      ∧ (buildTree score sentinel [["a1", "b1", "yes"], ["a2", "b2", "yes"]] [0, 1] 2 "info"
          ["A", "B", "L"] 0 8).isLeaf = true
      ∧ (buildTree score sentinel [["a1", "b1", "yes"], ["a2", "b2", "yes"]] [0, 1] 2 "info"
          ["A", "B", "L"] 0 8).children = []
      ∧ (([["a1", "b1", "yes"], ["a2", "b2", "yes"]] : Dataset) ≠ [] →
          buildTree score sentinel [["a1", "b1", "yes"], ["a2", "b2", "yes"]] [0, 1] 2 "info"
            ["A", "B", "L"] 0 8 = Node.leaf "yes") :=
  ⟨by decide,
    buildTree_uniform_label score sentinel [["a1", "b1", "yes"], ["a2", "b2", "yes"]] [0, 1] 2
      "info" ["A", "B", "L"] 0 8 "yes" (by decide)⟩

/-- C2 fails on the empty dataset: with `depth = 0` and `maxDepth = 0` the tree is the leaf
`"unknown"`, while `majorityLabel` of the empty dataset is the empty string. -/
theorem buildTree_maxDepth_zero_empty_counterexample :
    buildTree score sentinel [] [0] 1 "gini" ["A", "L"] 0 0 = Node.leaf "unknown"
      ∧ majorityLabel [] 1 = ""
      ∧ (buildTree score sentinel [] [0] 1 "gini" ["A", "L"] 0 0).label
          ≠ majorityLabel [] 1 := by
  rw [buildTree_empty]
  exact ⟨rfl, by decide, by decide⟩

/-- C2 (amended): for every non-empty dataset, every candidate list and every metric name
(and every way of scoring), `buildTree` called with `depth = 0` and `maxDepth = 0` returns
the single leaf labelled `majorityLabel data labelIndex`. -/
theorem buildTree_maxDepth_zero {S : Type} [LT S] [DecidableRel ((· < ·) : S → S → Prop)]
    (scoreOf : String → Dataset → Int → Int → S) (init : S)
    (data : Dataset) (featureIndices : List Int) (labelIndex : Int) (metric : String)
    (attributeNames : List String) (hne : data ≠ []) :
    buildTree scoreOf init data featureIndices labelIndex metric attributeNames 0 0
      = Node.leaf (majorityLabel data labelIndex) := by
  cases hs : allSame data labelIndex with
  | true =>
    rw [buildTree_allSame scoreOf init data featureIndices labelIndex metric attributeNames
      0 0 hne hs, majorityLabel_of_forall data labelIndex _ hne (forall_of_allSame _ _ hs)]
  | false =>
    exact buildTree_cutoff scoreOf init data featureIndices labelIndex metric attributeNames
      0 0 hne hs (Or.inr le_rfl)

/-- C2 (amended), at the dataset `(a1,yes), (a2,no), (a3,no)`: the tree is the leaf `no`. -/
theorem buildTree_maxDepth_zero_witness :
    ([["a1", "yes"], ["a2", "no"], ["a3", "no"]] : Dataset) ≠ []
      ∧ buildTree score sentinel [["a1", "yes"], ["a2", "no"], ["a3", "no"]] [0] 1 "gini"
          ["A", "L"] 0 0 = Node.leaf "no" :=
  ⟨by decide,
    buildTree_maxDepth_zero score sentinel [["a1", "yes"], ["a2", "no"], ["a3", "no"]] [0] 1
      "gini" ["A", "L"] (by decide)⟩

/-- C3: for every row `r` of the dataset, in the tree built at depth 0 (any candidate list,
metric, depth limit and way of scoring) the descent of `predict` on `r` uses exact-match
children only and ends in a leaf whose label is `predict tree r`; `r` is one of the
training rows routed to that leaf, and when those rows all share one label then
`predict tree r = r[labelIndex]`. -/
theorem predict_training_row {S : Type} [LT S] [DecidableRel ((· < ·) : S → S → Prop)]
    (scoreOf : String → Dataset → Int → Int → S) (init : S)
    (data : Dataset) (featureIndices : List Int) (labelIndex : Int) (metric : String)
    (attributeNames : List String) (maxDepth : Int) (r : Row) (hr : r ∈ data) :
    ∃ rows,
      descend (buildTree scoreOf init data featureIndices labelIndex metric attributeNames 0
          maxDepth) r data
        = some (predict (buildTree scoreOf init data featureIndices labelIndex metric
            attributeNames 0 maxDepth) r, rows)
      ∧ r ∈ rows
      ∧ ((∀ x ∈ rows, ∀ y ∈ rows, cell x labelIndex = cell y labelIndex) →
          predict (buildTree scoreOf init data featureIndices labelIndex metric attributeNames
            0 maxDepth) r = cell r labelIndex) := by
  revert r
  refine buildTree_induction scoreOf init labelIndex metric attributeNames maxDepth
    (fun data _ _ t => ∀ r ∈ data, ∃ rows, descend t r data = some (predict t r, rows)
      ∧ r ∈ rows
      ∧ ((∀ x ∈ rows, ∀ y ∈ rows, cell x labelIndex = cell y labelIndex) →
          predict t r = cell r labelIndex))
    ?_ ?_ ?_ ?_ ?_ data featureIndices 0
  · intro _ _ r hr
    simp at hr
  · intro data _ _ _ hs r hr
    refine ⟨data, ?_, hr, fun _ => ?_⟩
    · rw [descend_leaf, predict_leaf_node]
    · rw [predict_leaf_node]
      exact (forall_of_allSame data labelIndex hs r hr).symm
  · intro data _ _ hne hs _ r hr
    refine ⟨data, ?_, hr, fun hpure => ?_⟩
    · rw [descend_leaf, predict_leaf_node]
    · have : allSame data labelIndex = true :=
        allSame_of_forall data labelIndex (cell r labelIndex) (fun x hx => hpure x hx r hr)
      rw [hs] at this
      exact absurd this (by decide)
  · intro data _ _ hne hs _ _ _ r hr
    refine ⟨data, ?_, hr, fun hpure => ?_⟩
    · rw [descend_leaf, predict_leaf_node]
    · have : allSame data labelIndex = true :=
        allSame_of_forall data labelIndex (cell r labelIndex) (fun x hx => hpure x hx r hr)
      rw [hs] at this
      exact absurd this (by decide)
  · intro data feats depth best _ _ _ _ _ _ ih r hr
    have hsub : (cell r best, data.filter (fun row => cell row best = cell r best))
        ∈ subsetsBy data best := by
      rw [mem_subsetsBy_iff]
      refine ⟨rfl, ?_⟩
      intro h
      have : r ∈ data.filter (fun row => cell row best = cell r best) :=
        List.mem_filter.2 ⟨hr, by simp⟩
      rw [h] at this
      simp at this
    have hfind := mapFind_of_mem _ _ _ (subsetsBy_sorted data best) hsub
    have hchild : mapFind (cell r best)
        ((subsetsBy data best).map fun kv =>
          (kv.1, buildTree scoreOf init kv.2 (feats.filter (fun f => f ≠ best)) labelIndex
            metric attributeNames (depth + 1) maxDepth))
        = some (buildTree scoreOf init (data.filter (fun row => cell row best = cell r best))
            (feats.filter (fun f => f ≠ best)) labelIndex metric attributeNames (depth + 1)
            maxDepth) := by
      rw [mapFind_map (fun d => buildTree scoreOf init d (feats.filter (fun f => f ≠ best))
        labelIndex metric attributeNames (depth + 1) maxDepth), hfind]
      rfl
    rw [descend_found _ _ _ _ _ _ _ hchild, predict_found _ _ _ _ _ _ hchild]
    exact ih _ hsub r (List.mem_filter.2 ⟨hr, by simp⟩)

/-- C3, at the rows `(a,"")`, `(b,"")`, `(c,x)` and the training row `(c,x)`. -/
theorem predict_training_row_witness :
    ["c", "x"] ∈ ([["a", ""], ["b", ""], ["c", "x"]] : Dataset) ∧ ∃ rows,
      descend (buildTree score sentinel [["a", ""], ["b", ""], ["c", "x"]] [0] 1 "gini"
          ["A", "L"] 0 8) ["c", "x"] [["a", ""], ["b", ""], ["c", "x"]]
        = some (predict (buildTree score sentinel [["a", ""], ["b", ""], ["c", "x"]] [0] 1
            "gini" ["A", "L"] 0 8) ["c", "x"], rows)
      ∧ ["c", "x"] ∈ rows
      ∧ ((∀ x ∈ rows, ∀ y ∈ rows, cell x 1 = cell y 1) →
          predict (buildTree score sentinel [["a", ""], ["b", ""], ["c", "x"]] [0] 1 "gini"
            ["A", "L"] 0 8) ["c", "x"] = cell ["c", "x"] 1) :=
  ⟨by decide,
    predict_training_row score sentinel [["a", ""], ["b", ""], ["c", "x"]] [0] 1 "gini"
      ["A", "L"] 8 ["c", "x"] (by decide)⟩

/-- C4: for a non-empty dataset whose rows do not all share one label, with the metric
`info`, `depth = 0` and `maxDepth ≥ 1`, if `f` is the first candidate (in list order) that
separates the classes perfectly, then `buildTree` returns a decision node that splits on
`f`, with one child per subset of the partition by `f`, each child a leaf labelled with the
label of its subset. -/
theorem buildTree_info_first_separating (data : Dataset) (featureIndices : List Int)
    (labelIndex : Int) (attributeNames : List String) (maxDepth : Int)
    (pre post : List Int) (f : Int)
    (hne : data ≠ []) (hmixed : allSame data labelIndex = false) (hdepth : 1 ≤ maxDepth)
    (hfeats : featureIndices = pre ++ f :: post)
    (hpre : ∀ g ∈ pre, separates data g labelIndex = false)
    (hf : separates data f labelIndex = true) :
    buildTree score sentinel data featureIndices labelIndex "info" attributeNames 0 maxDepth
      = Node.mk (cell attributeNames f) f "" false
          ((subsetsBy data f).map fun kv =>
            (kv.1, Node.leaf (cell (kv.2.headD []) labelIndex))) := by
  have hscore : ∀ g, score "info" data g labelIndex = informationGain data g labelIndex := by
    intro g
    have : ¬ ("info" = "gini") := by decide
    simp [score, this]
  have hsel : selectBest (fun g => score "info" data g labelIndex) featureIndices
      (sentinel, -1) = (score "info" data f labelIndex, f) := by
    rw [hfeats]
    apply selectBest_first_max
    · rw [hscore, informationGain_of_separates data f labelIndex hf]
      have := entropy_nonneg data labelIndex
      simp only [sentinel]
      linarith
    · intro g hg
      rw [hscore, hscore, informationGain_of_separates data f labelIndex hf]
      exact informationGain_lt_of_not_separates data g labelIndex (hpre g hg)
    · intro g _
      rw [hscore, hscore, informationGain_of_separates data f labelIndex hf]
      exact not_lt.2 (informationGain_le_entropy data g labelIndex)
  have hf1 : f ≠ -1 := by
    intro h
    subst h
    have hmem : ("", data) ∈ subsetsBy data (-1) := by
      rw [mem_subsetsBy_iff]
      refine ⟨?_, hne⟩
      symm
      rw [List.filter_eq_self]
      intro a _
      simp [cell]
    have := List.all_eq_true.1 hf ("", data) hmem
    simp only at this
    rw [hmixed] at this
    exact absurd this (by decide)
  have hfeatne : featureIndices ≠ [] := by rw [hfeats]; simp
  rw [buildTree_split score sentinel data featureIndices labelIndex "info" attributeNames 0
    maxDepth hne hmixed hfeatne (by omega), hsel]
  simp only [hf1, if_false]
  congr 1
  apply List.map_congr_left
  intro kv hkv
  have hs : allSame kv.2 labelIndex = true := List.all_eq_true.1 hf kv hkv
  rw [buildTree_allSame score sentinel kv.2 _ labelIndex "info" attributeNames _ maxDepth
    (subsetsBy_snd data f kv hkv).2 hs]

/-- C4, at the rows `(a1,b1,yes)`, `(a1,b2,yes)`, `(a2,b1,no)`, `(a2,b2,no)` with the
candidates `[0,1]` and label column 2: the root splits on `A` (column 0) with the leaf
children `a1 -> yes` and `a2 -> no`, and `predict` on `(a1,b1)` returns `yes`. -/
theorem buildTree_info_first_separating_witness :
    (buildTree score sentinel
        [["a1", "b1", "yes"], ["a1", "b2", "yes"], ["a2", "b1", "no"], ["a2", "b2", "no"]]
        [0, 1] 2 "info" ["A", "B", "L"] 0 8
      = Node.mk "A" 0 "" false [("a1", Node.leaf "yes"), ("a2", Node.leaf "no")])
    ∧ predict (Node.mk "A" 0 "" false [("a1", Node.leaf "yes"), ("a2", Node.leaf "no")])
        ["a1", "b1"] = "yes" :=
  ⟨buildTree_info_first_separating
      [["a1", "b1", "yes"], ["a1", "b2", "yes"], ["a2", "b1", "no"], ["a2", "b2", "no"]]
      [0, 1] 2 ["A", "B", "L"] 8 [] [1] 0 (by decide) (by decide) (by decide) rfl
      (by decide) (by decide),
    by decide⟩

/-- C5 does not hold when the most frequent label among the leaf children is the empty
string.  The dataset `(a,"")`, `(b,"")`, `(c,x)` (label column 1, metric `gini`) builds a
root with the three leaf children `""`, `""`, `x`; for the sample `(d,"")`, whose value
`d` is not a key of the root, `predict` answers `"unknown"`, which is the label of no
child, and not the most frequent leaf label `""`. -/
theorem predict_fallback_empty_label :
    buildTree score sentinel [["a", ""], ["b", ""], ["c", "x"]] [0] 1 "gini" ["A", "L"] 0 8
        = Node.mk "A" 0 "" false [("a", Node.leaf ""), ("b", Node.leaf ""), ("c", Node.leaf "x")]
      ∧ mapFind (cell ["d", ""] 0)
          [("a", Node.leaf ""), ("b", Node.leaf ""), ("c", Node.leaf "x")] = none
      ∧ predict
          (Node.mk "A" 0 "" false [("a", Node.leaf ""), ("b", Node.leaf ""), ("c", Node.leaf "x")])
          ["d", ""] = "unknown" := by
  exact ⟨buildTree_three_rows, rfl, by decide⟩

/-- C6: at a node that is not a leaf, for a sample whose value in the node's column is not
a key of the children map, `predict` returns `"unknown"` when no immediate child is a leaf
(in particular when there are no children). -/
theorem predict_no_leaf_children (node : Node) (sample : Row)
    (hnode : node.isLeaf = false)
    (habsent : mapFind (cell sample node.featureIndex) node.children = none)
    (hnone : ∀ kv ∈ node.children, kv.2.isLeaf = false) :
    predict node sample = "unknown" := by
  obtain ⟨n, i, l, b, children⟩ := node
  change b = false at hnode
  change mapFind (cell sample i) children = none at habsent
  change ∀ kv ∈ children, kv.2.isLeaf = false at hnone
  subst hnode
  rw [predict_absent n i l children sample habsent]
  exact leafVote_no_leaf children hnone

/-- C6, at a root whose only child is itself a decision node, for the unseen value `z`. -/
theorem predict_no_leaf_children_witness :
    (Node.mk "A" 0 "" false
        [("a", Node.mk "B" 1 "" false [("b", Node.leaf "yes")])]).isLeaf = false
      ∧ predict
          (Node.mk "A" 0 "" false [("a", Node.mk "B" 1 "" false [("b", Node.leaf "yes")])])
          ["z", "b"] = "unknown" :=
  ⟨rfl,
    predict_no_leaf_children
      (Node.mk "A" 0 "" false [("a", Node.mk "B" 1 "" false [("b", Node.leaf "yes")])])
      ["z", "b"] rfl rfl (by decide)⟩

/-- C7: `predict` returns the label of a leaf for every sample, and at a node that is not
a leaf and whose children map holds the key `sample[featureIndex]` it returns what
`predict` returns on the child stored under that key. -/
theorem predict_leaf_and_descend (node : Node) (sample : Row) :
    (node.isLeaf = true → predict node sample = node.label)
      ∧ (∀ child, node.isLeaf = false →
          mapFind (cell sample node.featureIndex) node.children = some child →
          predict node sample = predict child sample) := by
  obtain ⟨n, i, l, b, children⟩ := node
  simp only [Node.isLeaf, Node.featureIndex, Node.children, Node.label]
  constructor
  · intro hb
    subst hb
    exact predict_leaf n i l children sample
  · intro child hb hfind
    subst hb
    exact predict_found n i l children sample child hfind

/-- C7, at the root `A` with the leaf children `a1 -> yes` and `a2 -> no`: the leaf `yes`
answers `yes`, and the sample `(a2,b1)` is answered by the child under `a2`. -/
theorem predict_leaf_and_descend_witness :
    predict (Node.leaf "yes") ["a2", "b1"] = "yes"
      ∧ predict (Node.mk "A" 0 "" false [("a1", Node.leaf "yes"), ("a2", Node.leaf "no")])
          ["a2", "b1"] = predict (Node.leaf "no") ["a2", "b1"] :=
  ⟨(predict_leaf_and_descend (Node.leaf "yes") ["a2", "b1"]).1 rfl,
    (predict_leaf_and_descend
      (Node.mk "A" 0 "" false [("a1", Node.leaf "yes"), ("a2", Node.leaf "no")])
      ["a2", "b1"]).2 (Node.leaf "no") rfl rfl⟩

/-- C8: in every tree returned by `buildTree`, for any candidate list (repeated indices
included) and any way of scoring, the `featureIndex` values of the decision nodes along
every root-to-leaf path are pairwise distinct and each of them is an element of the
candidate list passed to the call. -/
theorem buildTree_paths_distinct {S : Type} [LT S] [DecidableRel ((· < ·) : S → S → Prop)]
    (scoreOf : String → Dataset → Int → Int → S) (init : S)
    (data : Dataset) (featureIndices : List Int) (labelIndex : Int) (metric : String)
    (attributeNames : List String) (depth maxDepth : Int) :
    ∀ p ∈ paths (buildTree scoreOf init data featureIndices labelIndex metric attributeNames
        depth maxDepth),
      p.Nodup ∧ ∀ f ∈ p, f ∈ featureIndices := by
  refine buildTree_induction scoreOf init labelIndex metric attributeNames maxDepth
    (fun _ feats _ t => ∀ p ∈ paths t, p.Nodup ∧ ∀ f ∈ p, f ∈ feats)
    ?_ ?_ ?_ ?_ ?_ data featureIndices depth
  · intro feats depth p hp
    rw [paths_leaf, List.mem_singleton] at hp
    subst hp; simp
  · intro data feats depth _ _ p hp
    rw [paths_leaf, List.mem_singleton] at hp
    subst hp; simp
  · intro data feats depth _ _ _ p hp
    rw [paths_leaf, List.mem_singleton] at hp
    subst hp; simp
  · intro data feats depth _ _ _ _ _ p hp
    rw [paths_leaf, List.mem_singleton] at hp
    subst hp; simp
  · intro data feats depth best _ _ _ _ hbest hne ih p hp
    rw [mem_paths_decision] at hp
    obtain ⟨q, ⟨kv, hkv, hq⟩, rfl⟩ := hp
    rw [List.mem_map] at hkv
    obtain ⟨kv', hkv', rfl⟩ := hkv
    obtain ⟨hnodup, hmem⟩ := ih kv' hkv' q hq
    have hbest_mem : best ∈ feats := by
      rcases selectBest_snd_mem (fun f => scoreOf metric data f labelIndex) feats (init, -1)
        with h | h
      · exact absurd (hbest.trans h) hne
      · rw [hbest]; exact h
    refine ⟨List.nodup_cons.2 ⟨?_, hnodup⟩, ?_⟩
    · intro hin
      have := hmem best hin
      simp at this
    · intro f hf
      rcases List.mem_cons.1 hf with h | h
      · rw [h]; exact hbest_mem
      · exact (List.mem_filter.1 (hmem f h)).1

/-- C8, at the tree built from `(a,"")`, `(b,"")`, `(c,x)`: the path `[0]`. -/
theorem buildTree_paths_distinct_witness :
    [0] ∈ paths (buildTree score sentinel [["a", ""], ["b", ""], ["c", "x"]] [0] 1 "gini"
        ["A", "L"] 0 8)
      ∧ ([0] : List Int).Nodup ∧ ∀ f ∈ ([0] : List Int), f ∈ ([0] : List Int) :=
  ⟨by rw [buildTree_three_rows]; decide,
    buildTree_paths_distinct score sentinel [["a", ""], ["b", ""], ["c", "x"]] [0] 1 "gini"
      ["A", "L"] 0 8 [0] (by rw [buildTree_three_rows]; decide)⟩

/-- C9: the tree returned by `buildTree` at `depth` with limit `maxDepth` has height at
most `max 0 (maxDepth - depth)`, and so has every root-to-leaf path as a count of decision
nodes, whatever the number of candidate features and the way of scoring; in particular a
call with `depth = 0` and `maxDepth = m ≥ 0` returns a tree of height at most `m`. -/
theorem buildTree_height_le {S : Type} [LT S] [DecidableRel ((· < ·) : S → S → Prop)]
    (scoreOf : String → Dataset → Int → Int → S) (init : S)
    (data : Dataset) (featureIndices : List Int) (labelIndex : Int) (metric : String)
    (attributeNames : List String) (depth maxDepth : Int) (m : Nat) :
    ((height (buildTree scoreOf init data featureIndices labelIndex metric attributeNames
        depth maxDepth) : Int) ≤ max 0 (maxDepth - depth))
      ∧ (∀ p ∈ paths (buildTree scoreOf init data featureIndices labelIndex metric
            attributeNames depth maxDepth), (p.length : Int) ≤ max 0 (maxDepth - depth))
      ∧ height (buildTree scoreOf init data featureIndices labelIndex metric attributeNames
          0 (m : Int)) ≤ m
      ∧ (∀ p ∈ paths (buildTree scoreOf init data featureIndices labelIndex metric
            attributeNames 0 (m : Int)), p.length ≤ m) := by
  have hh : ∀ (depth maxDepth : Int),
      height (buildTree scoreOf init data featureIndices labelIndex metric attributeNames
        depth maxDepth) ≤ (maxDepth - depth).toNat := by
    intro depth maxDepth
    refine buildTree_induction scoreOf init labelIndex metric attributeNames maxDepth
      (fun _ _ depth t => height t ≤ (maxDepth - depth).toNat)
      ?_ ?_ ?_ ?_ ?_ data featureIndices depth
    · intro _ _; rw [height_leaf]; exact Nat.zero_le _
    · intro _ _ _ _ _; rw [height_leaf]; exact Nat.zero_le _
    · intro _ _ _ _ _ _; rw [height_leaf]; exact Nat.zero_le _
    · intro _ _ _ _ _ _ _ _; rw [height_leaf]; exact Nat.zero_le _
    · intro data feats depth best _ _ _ hd _ _ ih
      rw [height_decision]
      have : heightMax ((subsetsBy data best).map fun kv =>
          (kv.1, buildTree scoreOf init kv.2 (feats.filter (fun f => f ≠ best)) labelIndex
            metric attributeNames (depth + 1) maxDepth))
          ≤ (maxDepth - (depth + 1)).toNat := by
        apply heightMax_le
        intro kv hkv
        rw [List.mem_map] at hkv
        obtain ⟨kv', hkv', rfl⟩ := hkv
        exact ih kv' hkv'
      omega
  have hp : ∀ (depth maxDepth : Int),
      ∀ p ∈ paths (buildTree scoreOf init data featureIndices labelIndex metric attributeNames
        depth maxDepth), p.length ≤ (maxDepth - depth).toNat := by
    intro depth maxDepth
    refine buildTree_induction scoreOf init labelIndex metric attributeNames maxDepth
      (fun _ _ depth t => ∀ p ∈ paths t, p.length ≤ (maxDepth - depth).toNat)
      ?_ ?_ ?_ ?_ ?_ data featureIndices depth
    · intro _ _ p hp
      rw [paths_leaf, List.mem_singleton] at hp
      subst hp; simp
    · intro _ _ _ _ _ p hp
      rw [paths_leaf, List.mem_singleton] at hp
      subst hp; simp
    · intro _ _ _ _ _ _ p hp
      rw [paths_leaf, List.mem_singleton] at hp
      subst hp; simp
    · intro _ _ _ _ _ _ _ _ p hp
      rw [paths_leaf, List.mem_singleton] at hp
      subst hp; simp
    · intro data feats depth best _ _ _ hd _ _ ih p hp
      rw [mem_paths_decision] at hp
      obtain ⟨q, ⟨kv, hkv, hq⟩, rfl⟩ := hp
      rw [List.mem_map] at hkv
      obtain ⟨kv', hkv', rfl⟩ := hkv
      have := ih kv' hkv' q hq
      simp only [List.length_cons]
      omega
  refine ⟨?_, ?_, ?_, ?_⟩
  · have := hh depth maxDepth
    omega
  · intro p hmem
    have := hp depth maxDepth p hmem
    omega
  · have := hh 0 (m : Int)
    omega
  · intro p hmem
    have := hp 0 (m : Int) p hmem
    omega

/-- C9, at the tree built from `(a,"")`, `(b,"")`, `(c,x)` with `maxDepth = 8` and at the
same call with `maxDepth = 1`: the path `[0]` has one decision node. -/
theorem buildTree_height_le_witness :
    [0] ∈ paths (buildTree score sentinel [["a", ""], ["b", ""], ["c", "x"]] [0] 1 "gini"
        ["A", "L"] 0 8)
      ∧ ((([0] : List Int).length : Int) ≤ max 0 (8 - 0))
      ∧ height (buildTree score sentinel [["a", ""], ["b", ""], ["c", "x"]] [0] 1 "gini"
          ["A", "L"] 0 ((1 : Nat) : Int)) ≤ 1 :=
  ⟨by rw [buildTree_three_rows]; decide,
    (buildTree_height_le score sentinel [["a", ""], ["b", ""], ["c", "x"]] [0] 1 "gini"
      ["A", "L"] 0 8 1).2.1 [0] (by rw [buildTree_three_rows]; decide),
    (buildTree_height_le score sentinel [["a", ""], ["b", ""], ["c", "x"]] [0] 1 "gini"
      ["A", "L"] 0 8 1).2.2.1⟩

/-! ## Entropy, split information and the empty dataset -/

theorem allSame_iff_exists (data : Dataset) (labelIndex : Int) :
    allSame data labelIndex = true ↔ ∃ l, ∀ row ∈ data, cell row labelIndex = l :=
  ⟨fun h => ⟨_, forall_of_allSame data labelIndex h⟩,
    fun ⟨l, h⟩ => allSame_of_forall data labelIndex l h⟩

/-- C12: for every dataset, in particular every non-empty one, `entropy data labelIndex`
(logarithm to base 2, exact real arithmetic) is non-negative, and it is zero exactly when
all rows carry one and the same label. -/
theorem entropy_nonneg_and_zero_iff (data : Dataset) (labelIndex : Int) :
    entropy data labelIndex ≥ 0
      ∧ (entropy data labelIndex = 0 ↔ ∃ l, ∀ row ∈ data, cell row labelIndex = l) := by
  refine ⟨entropy_nonneg data labelIndex, ?_, ?_⟩
  · intro h0
    cases hs : allSame data labelIndex with
    | true => exact (allSame_iff_exists data labelIndex).1 hs
    | false =>
      have := entropy_pos_of_not_allSame data labelIndex hs
      rw [h0] at this
      exact absurd this (lt_irrefl _)
  · intro h
    exact entropy_eq_zero_of_allSame data labelIndex ((allSame_iff_exists data labelIndex).2 h)

/-- C13: when every row of the dataset has the same value `v` in column `f` (the empty
dataset included), `splitInfo data f` is 0, the guard of `gainRatio` is taken instead of
the division, and `gainRatio data f labelIndex` is exactly 0. -/
theorem gainRatio_constant_feature (data : Dataset) (f labelIndex : Int) (v : String)
    (h : ∀ row ∈ data, cell row f = v) :
    splitInfo data f = 0 ∧ gainRatio data f labelIndex = 0 := by
  have h0 : splitInfo data f = 0 :=
    entropy_eq_zero_of_allSame data f (allSame_of_forall data f v h)
  refine ⟨h0, ?_⟩
  unfold gainRatio
  simp only [h0, true_or, if_true]

/-- C13, at the rows `(a,yes)`, `(a,no)` and the constant column 0. -/
theorem gainRatio_constant_feature_witness :
    (∀ row ∈ ([["a", "yes"], ["a", "no"]] : Dataset), cell row 0 = "a")
      ∧ splitInfo [["a", "yes"], ["a", "no"]] 0 = 0
      ∧ gainRatio [["a", "yes"], ["a", "no"]] 0 1 = 0 :=
  ⟨by decide, gainRatio_constant_feature [["a", "yes"], ["a", "no"]] 0 1 "a" (by decide)⟩

/-- C18: for the empty dataset and every candidate list, metric name, depth and depth
limit (and every way of scoring), `buildTree` returns a single leaf, with `isLeaf` set and
no children, whose label is `"unknown"`. -/
theorem buildTree_empty_unknown {S : Type} [LT S] [DecidableRel ((· < ·) : S → S → Prop)]
    (scoreOf : String → Dataset → Int → Int → S) (init : S)
    (featureIndices : List Int) (labelIndex : Int) (metric : String)
    (attributeNames : List String) (depth maxDepth : Int) :
    buildTree scoreOf init [] featureIndices labelIndex metric attributeNames depth maxDepth
        = Node.leaf "unknown"
      ∧ (buildTree scoreOf init [] featureIndices labelIndex metric attributeNames depth
          maxDepth).isLeaf = true
      ∧ (buildTree scoreOf init [] featureIndices labelIndex metric attributeNames depth
          maxDepth).label = "unknown"
      ∧ (buildTree scoreOf init [] featureIndices labelIndex metric attributeNames depth
          maxDepth).children = [] := by
  rw [buildTree_empty]
  exact ⟨rfl, rfl, rfl, rfl⟩

/-! ## The majority label -/

theorem argMaxCount_split (m : List (String × Nat)) (b : String × Nat) :
    (m.foldl (fun best kv => if kv.2 > best.2 then (kv.1, kv.2) else best) b = b
        ∧ ∀ kv ∈ m, kv.2 ≤ b.2)
      ∨ ∃ pre post,
          m = pre ++ m.foldl (fun best kv => if kv.2 > best.2 then (kv.1, kv.2) else best) b
                :: post
          ∧ b.2 < (m.foldl (fun best kv => if kv.2 > best.2 then (kv.1, kv.2) else best) b).2
          ∧ (∀ kv ∈ pre,
              kv.2 < (m.foldl (fun best kv => if kv.2 > best.2 then (kv.1, kv.2) else best) b).2)
          ∧ ∀ kv ∈ post,
              kv.2 ≤ (m.foldl (fun best kv => if kv.2 > best.2 then (kv.1, kv.2) else best) b).2 := by
  induction m generalizing b with
  | nil => left; simp
  | cons a rest ih =>
    rw [List.foldl_cons]
    by_cases h : a.2 > b.2
    · simp only [h, if_true]
      right
      rcases ih (a.1, a.2) with ⟨h1, h2⟩ | ⟨pre, post, h1, h2, h3, h4⟩
      · refine ⟨[], rest, ?_, ?_, ?_, ?_⟩
        · rw [h1]; rfl
        · rw [h1]; exact h
        · intro kv hkv; simp at hkv
        · intro kv hkv; rw [h1]; exact h2 kv hkv
      · refine ⟨a :: pre, post, ?_, ?_, ?_, h4⟩
        · rw [List.cons_append, ← h1]
        · exact lt_trans h h2
        · intro kv hkv
          rcases List.mem_cons.1 hkv with e | e
          · rw [e]; exact h2
          · exact h3 kv e
    · simp only [h, if_false]
      rcases ih b with ⟨h1, h2⟩ | ⟨pre, post, h1, h2, h3, h4⟩
      · left
        refine ⟨h1, ?_⟩
        intro kv hkv
        rcases List.mem_cons.1 hkv with e | e
        · rw [e]; exact not_lt.1 h
        · exact h2 kv e
      · right
        refine ⟨a :: pre, post, ?_, h2, ?_, h4⟩
        · rw [List.cons_append, ← h1]
        · intro kv hkv
          rcases List.mem_cons.1 hkv with e | e
          · rw [e]; exact lt_of_le_of_lt (not_lt.1 h) h2
          · exact h3 kv e

theorem countLabels_sorted (data : Dataset) (labelIndex : Int) :
    KeySorted (countLabels data labelIndex) := by
  have h := subsetsBy_sorted data labelIndex
  unfold KeySorted at h ⊢
  rw [countLabels_eq_map, List.map_map]
  exact h

theorem mem_countLabels_iff (data : Dataset) (labelIndex : Int) (l : String) (c : Nat) :
    (l, c) ∈ countLabels data labelIndex
      ↔ c = (data.filter (fun row => cell row labelIndex = l)).length ∧ c ≠ 0 := by
  rw [countLabels_eq_map, List.mem_map]
  constructor
  · rintro ⟨kv, hkv, hEq⟩
    obtain ⟨h1, h2⟩ := subsetsBy_snd data labelIndex kv hkv
    injection hEq with e1 e2
    subst e1
    rw [← e2]
    refine ⟨by rw [← h1], ?_⟩
    rw [Ne, List.length_eq_zero]
    exact h2
  · rintro ⟨h1, h2⟩
    refine ⟨(l, data.filter (fun row => cell row labelIndex = l)), ?_, ?_⟩
    · rw [mem_subsetsBy_iff]
      refine ⟨rfl, ?_⟩
      intro h0
      rw [h0] at h1
      exact h2 h1
    · rw [h1]

/-- The winner of the `maxCount` loop over the label counts of a non-empty dataset: its
position in the key-ascending count map, with strictly smaller counts before it and no
larger count after it. -/
theorem majorityLabel_split (data : Dataset) (labelIndex : Int) (hne : data ≠ []) :
    ∃ pre post,
      countLabels data labelIndex
          = pre ++ argMaxCount (countLabels data labelIndex) :: post
        ∧ (∀ kv ∈ pre, kv.2 < (argMaxCount (countLabels data labelIndex)).2)
        ∧ ∀ kv ∈ post, kv.2 ≤ (argMaxCount (countLabels data labelIndex)).2 := by
  rcases argMaxCount_split (countLabels data labelIndex) ("", 0) with ⟨_, h2⟩ | h
  · exfalso
    obtain ⟨r, hr⟩ := List.exists_mem_of_ne_nil _ hne
    have hpos : (data.filter (fun row => cell row labelIndex = cell r labelIndex)).length ≠ 0 := by
      rw [Ne, List.length_eq_zero]
      intro h0
      have : r ∈ data.filter (fun row => cell row labelIndex = cell r labelIndex) :=
        List.mem_filter.2 ⟨hr, by simp⟩
      rw [h0] at this
      simp at this
    have := h2 _ ((mem_countLabels_iff data labelIndex (cell r labelIndex) _).2 ⟨rfl, hpos⟩)
    simp only [Nat.le_zero] at this
    exact hpos this
  · obtain ⟨pre, post, h1, _, h3, h4⟩ := h
    exact ⟨pre, post, h1, h3, h4⟩

/-- C14: for every non-empty dataset, `majorityLabel data labelIndex` is a label value
that occurs in the dataset, no label value occurs more often, and every label value that
occurs equally often is the same string or comes later in ascending string order, the
iteration order of the label-count map. -/
theorem majorityLabel_most_frequent_first (data : Dataset) (labelIndex : Int)
    (hne : data ≠ []) :
    (∃ row ∈ data, cell row labelIndex = majorityLabel data labelIndex)
      ∧ (∀ l, (data.filter (fun row => cell row labelIndex = l)).length
            ≤ (data.filter
                (fun row => cell row labelIndex = majorityLabel data labelIndex)).length)
      ∧ (∀ l, (data.filter (fun row => cell row labelIndex = l)).length
              = (data.filter
                  (fun row => cell row labelIndex = majorityLabel data labelIndex)).length →
            l = majorityLabel data labelIndex
              ∨ (majorityLabel data labelIndex).data < l.data) := by
  obtain ⟨pre, post, hsplit, hpre, hpost⟩ := majorityLabel_split data labelIndex hne
  have hsorted := countLabels_sorted data labelIndex
  generalize hr : argMaxCount (countLabels data labelIndex) = r at hsplit hpre hpost
  have hmaj : majorityLabel data labelIndex = r.1 := by unfold majorityLabel; rw [hr]
  have hrmem : (r.1, r.2) ∈ countLabels data labelIndex := by
    rw [hsplit]; simp
  obtain ⟨hc, hc0⟩ := (mem_countLabels_iff data labelIndex r.1 r.2).1 hrmem
  rw [hmaj, ← hc]
  have hle : ∀ l, (data.filter (fun row => cell row labelIndex = l)).length ≤ r.2 := by
    intro l
    by_cases h0 : (data.filter (fun row => cell row labelIndex = l)).length = 0
    · rw [h0]; exact Nat.zero_le _
    · have hmem := (mem_countLabels_iff data labelIndex l _).2 ⟨rfl, h0⟩
      rw [hsplit, List.mem_append, List.mem_cons] at hmem
      rcases hmem with h | h | h
      · exact le_of_lt (hpre _ h)
      · rw [← h]
      · exact hpost _ h
  refine ⟨?_, hle, ?_⟩
  · have hne' : data.filter (fun row => cell row labelIndex = r.1) ≠ [] := by
      rw [Ne, ← List.length_eq_zero, ← hc]; exact hc0
    obtain ⟨row, hrow⟩ := List.exists_mem_of_ne_nil _ hne'
    rw [List.mem_filter] at hrow
    exact ⟨row, hrow.1, of_decide_eq_true hrow.2⟩
  · intro l hl
    have h0 : (data.filter (fun row => cell row labelIndex = l)).length ≠ 0 := by
      rw [hl]; exact hc0
    have hmem := (mem_countLabels_iff data labelIndex l _).2 ⟨rfl, h0⟩
    rw [hl] at hmem
    unfold KeySorted at hsorted
    rw [hsplit, List.map_append, List.map_cons, List.pairwise_append, List.pairwise_cons]
      at hsorted
    rw [hsplit, List.mem_append, List.mem_cons] at hmem
    rcases hmem with h | h | h
    · exact absurd (hpre _ h) (lt_irrefl _)
    · left
      exact congrArg Prod.fst h
    · right
      exact hsorted.2.1.1 l (List.mem_map.2 ⟨(l, r.2), h, rfl⟩)

/-- C14, at the rows `(a1,yes)`, `(a2,no)`, `(a3,yes)`, `(a4,no)`: the labels `no` and `yes`
tie with two rows each and `majorityLabel` is `no`. -/
theorem majorityLabel_most_frequent_first_witness :
    ([["a1", "yes"], ["a2", "no"], ["a3", "yes"], ["a4", "no"]] : Dataset) ≠ []
      ∧ majorityLabel [["a1", "yes"], ["a2", "no"], ["a3", "yes"], ["a4", "no"]] 1 = "no"
      ∧ (∀ l,
          (([["a1", "yes"], ["a2", "no"], ["a3", "yes"], ["a4", "no"]] : Dataset).filter
              (fun row => cell row 1 = l)).length
            = (([["a1", "yes"], ["a2", "no"], ["a3", "yes"], ["a4", "no"]] : Dataset).filter
                (fun row => cell row 1
                  = majorityLabel [["a1", "yes"], ["a2", "no"], ["a3", "yes"], ["a4", "no"]]
                      1)).length →
          l = majorityLabel [["a1", "yes"], ["a2", "no"], ["a3", "yes"], ["a4", "no"]] 1
            ∨ (majorityLabel [["a1", "yes"], ["a2", "no"], ["a3", "yes"], ["a4", "no"]]
                1).data < l.data) :=
  ⟨by decide, by decide,
    (majorityLabel_most_frequent_first
      [["a1", "yes"], ["a2", "no"], ["a3", "yes"], ["a4", "no"]] 1 (by decide)).2.2⟩

/-! ## Gini impurity -/

theorem sum_subsetsBy_monoid {M : Type} [AddCommMonoid M] (data : Dataset) (f : Int)
    (g : Dataset → M) (hg : g [] = 0) (X : Finset String) (hX : ∀ r ∈ data, cell r f ∈ X) :
    ((subsetsBy data f).map (fun kv => g kv.2)).sum
      = ∑ x ∈ X, g (data.filter (fun r => cell r f = x)) := by
  have h1 : (subsetsBy data f).map (fun kv => g kv.2)
      = ((subsetsBy data f).map Prod.fst).map
          (fun k => g (data.filter (fun r => cell r f = k))) := by
    rw [List.map_map]
    apply List.map_congr_left
    intro kv hkv
    simp only [Function.comp]
    rw [← (subsetsBy_snd data f kv hkv).1]
  rw [h1, ← List.sum_toFinset _ (subsetsBy_keys_nodup data f)]
  apply Finset.sum_subset
  · intro k hk
    rw [List.mem_toFinset, List.mem_map] at hk
    obtain ⟨kv, hkv, rfl⟩ := hk
    obtain ⟨h2, h3⟩ := subsetsBy_snd data f kv hkv
    rw [h2] at h3
    obtain ⟨r, hr⟩ := List.exists_mem_of_ne_nil _ h3
    rw [List.mem_filter] at hr
    have := hX r hr.1
    simpa using (of_decide_eq_true hr.2) ▸ this
  · intro x _ hx
    by_cases hnil : data.filter (fun r => cell r f = x) = []
    · rw [hnil, hg]
    · exfalso
      apply hx
      rw [List.mem_toFinset, List.mem_map]
      exact ⟨(x, data.filter (fun r => cell r f = x)),
        (mem_subsetsBy_iff data f x _).2 ⟨rfl, hnil⟩, rfl⟩

theorem mem_subsetsBy_keys_iff (data : Dataset) (f : Int) (k : String) :
    k ∈ (subsetsBy data f).map Prod.fst ↔ ∃ r ∈ data, cell r f = k := by
  rw [List.mem_map]
  constructor
  · rintro ⟨kv, hkv, rfl⟩
    obtain ⟨h2, h3⟩ := subsetsBy_snd data f kv hkv
    rw [h2] at h3
    obtain ⟨r, hr⟩ := List.exists_mem_of_ne_nil _ h3
    rw [List.mem_filter] at hr
    exact ⟨r, hr.1, of_decide_eq_true hr.2⟩
  · rintro ⟨r, hr, rfl⟩
    refine ⟨(cell r f, data.filter (fun x => cell x f = cell r f)), ?_, rfl⟩
    rw [mem_subsetsBy_iff]
    refine ⟨rfl, ?_⟩
    intro h0
    have : r ∈ data.filter (fun x => cell x f = cell r f) := List.mem_filter.2 ⟨hr, by simp⟩
    rw [h0] at this
    simp at this

/-- The subset sizes of a partition add up to the size of the dataset. -/
theorem subsetsBy_length_sum (data : Dataset) (f : Int) :
    ((subsetsBy data f).map (fun kv => kv.2.length)).sum = data.length := by
  have hX : ∀ r ∈ data, cell r f ∈ (data.map (fun r => cell r f)).toFinset := by
    intro r hr
    rw [List.mem_toFinset, List.mem_map]
    exact ⟨r, hr, rfl⟩
  rw [sum_subsetsBy_monoid data f (fun v => v.length) rfl _ hX]
  exact sum_length_filter data f _ hX

/-- The weights `|subset| / |data|` of a partition of a non-empty dataset add up to 1. -/
theorem subsetsBy_weight_sum (data : Dataset) (f : Int) (hne : data ≠ []) :
    ((subsetsBy data f).map (fun kv => (kv.2.length : ℚ) / (data.length : ℚ))).sum = 1 := by
  have hn : (data.length : ℚ) ≠ 0 := by
    have := List.length_pos.2 hne
    exact_mod_cast (Nat.pos_iff_ne_zero.1 this)
  have h1 : (subsetsBy data f).map (fun kv => (kv.2.length : ℚ) / (data.length : ℚ))
      = ((subsetsBy data f).map (fun kv => (kv.2.length : ℚ))).map
          (fun x => x * (data.length : ℚ)⁻¹) := by
    rw [List.map_map]
    apply List.map_congr_left
    intro kv _
    simp [div_eq_mul_inv]
  have h2 : ((subsetsBy data f).map (fun kv => (kv.2.length : ℚ))).sum = (data.length : ℚ) := by
    rw [← subsetsBy_length_sum data f, Nat.cast_list_sum, List.map_map]
    rfl
  rw [h1, List.sum_map_mul_right, List.map_id', h2, mul_inv_cancel₀ hn]

theorem subset_weight_bounds_rat (data : Dataset) (f : Int) (kv : String × Dataset)
    (h : kv ∈ subsetsBy data f) :
    0 < (kv.2.length : ℚ) / (data.length : ℚ) ∧ (kv.2.length : ℚ) / (data.length : ℚ) ≤ 1 := by
  obtain ⟨h1, h2⟩ := subsetsBy_snd data f kv h
  have hpos : 0 < kv.2.length := List.length_pos.2 h2
  have hle : kv.2.length ≤ data.length := by
    rw [h1]; exact List.length_filter_le _ _
  have hn : (0 : ℚ) < (data.length : ℚ) := by
    exact_mod_cast lt_of_lt_of_le hpos hle
  have hposR : (0 : ℚ) < (kv.2.length : ℚ) := by exact_mod_cast hpos
  have hleR : (kv.2.length : ℚ) ≤ (data.length : ℚ) := by exact_mod_cast hle
  exact ⟨div_pos hposR hn, (div_le_one hn).2 hleR⟩

theorem foldl_sub_eq_sum {α : Type} (g : α → ℚ) (l : List α) (a : ℚ) :
    l.foldl (fun acc x => acc - g x) a = a - (l.map g).sum := by
  induction l generalizing a with
  | nil => simp
  | cons x rest ih => rw [List.foldl_cons, ih, List.map_cons, List.sum_cons]; ring

theorem giniImpurity_eq (data : Dataset) (labelIndex : Int) (hne : data ≠ []) :
    giniImpurity data labelIndex
      = 1 - ((subsetsBy data labelIndex).map
          (fun kv => (kv.2.length : ℚ) / (data.length : ℚ)
            * ((kv.2.length : ℚ) / (data.length : ℚ)))).sum := by
  unfold giniImpurity
  have : data.isEmpty = false := by
    cases data with
    | nil => exact absurd rfl hne
    | cons _ _ => rfl
  rw [this, countLabels_eq_map, List.foldl_map]
  simp only [Bool.false_eq_true, if_false]
  exact foldl_sub_eq_sum _ _ 1

theorem roundEven_error (q : ℚ) : |((roundEven q : ℤ) : ℚ) - q| ≤ 1 / 2 := by
  have h0 : (0 : ℚ) ≤ q - ⌊q⌋ := sub_nonneg.2 (Int.floor_le q)
  have h1 : q - ⌊q⌋ < 1 := by
    have := Int.lt_floor_add_one q
    linarith
  unfold roundEven
  split_ifs with ha hb hc
  · rw [abs_le]; constructor <;> linarith
  · rw [abs_le]; push_cast; constructor <;> linarith
  · rw [abs_le]; constructor <;> linarith
  · rw [abs_le]; push_cast; constructor <;> linarith

theorem roundEven_eq_of_near (q : ℚ) (m : ℤ) (h : |q - m| < 1 / 2) : roundEven q = m := by
  rw [abs_lt] at h
  have hr := roundEven_error q
  rw [abs_le] at hr
  have h1 : ((roundEven q : ℤ) : ℚ) - m < 1 := by linarith [hr.2, h.1]
  have h2 : -1 < ((roundEven q : ℤ) : ℚ) - m := by linarith [hr.1, h.2]
  have h3 : roundEven q - m < 1 := by exact_mod_cast h1
  have h4 : -1 < roundEven q - m := by exact_mod_cast h2
  omega

theorem roundEven_le_of_le (q : ℚ) (m : ℤ) (h : q ≤ m) : roundEven q ≤ m := by
  have hf : ⌊q⌋ ≤ m := by
    have : ((⌊q⌋ : ℤ) : ℚ) ≤ m := le_trans (Int.floor_le q) h
    exact_mod_cast this
  unfold roundEven
  rcases lt_or_eq_of_le hf with hlt | heq
  · split_ifs <;> omega
  · have hq : q = m := le_antisymm h (by rw [← heq]; exact Int.floor_le q)
    have : q - ⌊q⌋ < 1 / 2 := by rw [heq, hq]; norm_num
    rw [if_pos this]
    exact hf

theorem fl_zero : fl 0 = 0 := by simp [fl]

theorem log_eq_of_bounds (x : ℚ) (e : ℤ) (h1 : (2 : ℚ) ^ e ≤ |x|) (h2 : |x| < 2 ^ (e + 1)) :
    Int.log 2 |x| = e := by
  have hpos : 0 < |x| := lt_of_lt_of_le (by positivity) h1
  have a := (Int.zpow_le_iff_le_log (b := 2) (by norm_num) hpos).1 (by exact_mod_cast h1)
  have b := (Int.lt_zpow_iff_log_lt (b := 2) (by norm_num) hpos).1 (by exact_mod_cast h2)
  omega

theorem fl_eq (x : ℚ) (e : ℤ) (h1 : (2 : ℚ) ^ e ≤ |x|) (h2 : |x| < 2 ^ (e + 1)) :
    fl x = (roundEven (x / 2 ^ (e - 52)) : ℚ) * 2 ^ (e - 52) := by
  have hpos : 0 < |x| := lt_of_lt_of_le (by positivity) h1
  have hx : x ≠ 0 := abs_pos.1 hpos
  unfold fl
  rw [if_neg hx, log_eq_of_bounds x e h1 h2]

/-- The relative rounding error is at most `2^-53`. -/
theorem fl_error (x : ℚ) : |fl x - x| ≤ |x| * 2 ^ (-53 : ℤ) := by
  by_cases hx : x = 0
  · subst hx; simp [fl]
  · have hpos : 0 < |x| := abs_pos.2 hx
    unfold fl
    rw [if_neg hx]
    generalize he : Int.log 2 |x| = e
    have hle : (2 : ℚ) ^ e ≤ |x| := by
      rw [← he]
      have := Int.zpow_log_le_self (b := 2) (r := |x|) (by norm_num) hpos
      exact_mod_cast this
    have hu : (0 : ℚ) < 2 ^ (e - 52) := by positivity
    have hr := roundEven_error (x / 2 ^ (e - 52))
    have e1 : (roundEven (x / 2 ^ (e - 52)) : ℚ) * 2 ^ (e - 52) - x
        = ((roundEven (x / 2 ^ (e - 52)) : ℚ) - x / 2 ^ (e - 52)) * 2 ^ (e - 52) := by
      field_simp
    rw [e1, abs_mul, abs_of_pos hu]
    have e2 : (2 : ℚ) ^ (e - 52) = 2 ^ e * 2 ^ (-52 : ℤ) := by
      rw [← zpow_add₀ (by norm_num : (2 : ℚ) ≠ 0)]; congr 1
    have e3 : (2 : ℚ) ^ (-53 : ℤ) = 1 / 2 * 2 ^ (-52 : ℤ) := by norm_num
    calc |(roundEven (x / 2 ^ (e - 52)) : ℚ) - x / 2 ^ (e - 52)| * 2 ^ (e - 52)
        ≤ 1 / 2 * 2 ^ (e - 52) := mul_le_mul_of_nonneg_right hr (le_of_lt hu)
      _ = 2 ^ e * 2 ^ (-53 : ℤ) := by rw [e2, e3]; ring
      _ ≤ |x| * 2 ^ (-53 : ℤ) := mul_le_mul_of_nonneg_right hle (by positivity)

theorem fl_nonneg (x : ℚ) (h : 0 ≤ x) : 0 ≤ fl x := by
  have := fl_error x
  rw [abs_of_nonneg h, abs_le] at this
  have h53 : (2 : ℚ) ^ (-53 : ℤ) ≤ 1 := by norm_num
  nlinarith [this.1]

theorem fl_one : fl 1 = 1 := by
  rw [fl_eq 1 0 (by norm_num) (by norm_num)]
  have : roundEven ((1 : ℚ) / 2 ^ ((0 : ℤ) - 52)) = 4503599627370496 :=
    roundEven_eq_of_near _ _ (by norm_num)
  rw [this]
  norm_num

theorem fl_eq_pos (x : ℚ) (e : ℤ) (h1 : (2 : ℚ) ^ e ≤ x) (h2 : x < 2 ^ (e + 1)) :
    fl x = (roundEven (x / 2 ^ (e - 52)) : ℚ) * 2 ^ (e - 52) := by
  have hpos : 0 < x := lt_of_lt_of_le (by positivity) h1
  exact fl_eq x e (by rw [abs_of_pos hpos]; exact h1) (by rw [abs_of_pos hpos]; exact h2)

/-- Evaluation of `fl` at a positive value: `m` is the integer nearest to `x` in units of
the last bit. -/
theorem fl_eval (x : ℚ) (e : ℤ) (m : ℤ) (h1 : (2 : ℚ) ^ e ≤ x) (h2 : x < 2 ^ (e + 1))
    (hlo : (m : ℚ) - 1 / 2 < x / 2 ^ (e - 52)) (hhi : x / 2 ^ (e - 52) < (m : ℚ) + 1 / 2) :
    fl x = (m : ℚ) * 2 ^ (e - 52) := by
  rw [fl_eq_pos x e h1 h2, roundEven_eq_of_near _ m (by rw [abs_lt]; constructor <;> linarith)]

theorem fl_le_two_pow (x : ℚ) (t : ℤ) (h0 : 0 < x) (h : x < 2 ^ t) : fl x ≤ 2 ^ t := by
  generalize he : Int.log 2 x = e
  have hlt : e < t := by
    rw [← he]
    exact (Int.lt_zpow_iff_log_lt (b := 2) (by norm_num) h0).1 (by exact_mod_cast h)
  have h1 : (2 : ℚ) ^ e ≤ x := by
    rw [← he]
    have := Int.zpow_log_le_self (b := 2) (r := x) (by norm_num) h0
    exact_mod_cast this
  have h2 : x < (2 : ℚ) ^ (e + 1) := by
    rw [← he]
    have := Int.lt_zpow_succ_log_self (b := 2) (by norm_num) x
    exact_mod_cast this
  rw [fl_eq_pos x e h1 h2]
  have hu : (0 : ℚ) < 2 ^ (e - 52) := by positivity
  have e1 : (2 : ℚ) ^ (e + 1) = 9007199254740992 * 2 ^ (e - 52) := by
    have : (9007199254740992 : ℚ) = 2 ^ (53 : ℤ) := by norm_num
    rw [this, ← zpow_add₀ (by norm_num : (2 : ℚ) ≠ 0)]
    congr 1
    ring
  have hq : x / 2 ^ (e - 52) ≤ ((9007199254740992 : ℤ) : ℚ) := by
    rw [div_le_iff₀ hu]
    push_cast
    rw [← e1]
    exact le_of_lt h2
  have hr := roundEven_le_of_le _ _ hq
  have hr' : ((roundEven (x / 2 ^ (e - 52)) : ℤ) : ℚ) ≤ 9007199254740992 := by
    exact_mod_cast hr
  calc ((roundEven (x / 2 ^ (e - 52)) : ℤ) : ℚ) * 2 ^ (e - 52)
      ≤ 9007199254740992 * 2 ^ (e - 52) := mul_le_mul_of_nonneg_right hr' (le_of_lt hu)
    _ = 2 ^ (e + 1) := e1.symm
    _ ≤ 2 ^ t := zpow_le_zpow_right₀ (by norm_num) (by omega)

theorem fl_le_one (x : ℚ) (h0 : 0 ≤ x) (h1 : x ≤ 1) : fl x ≤ 1 := by
  rcases eq_or_lt_of_le h0 with h | h
  · rw [← h, fl_zero]; norm_num
  · rcases eq_or_lt_of_le h1 with h' | h'
    · rw [h', fl_one]
    · have := fl_le_two_pow x 0 h (by simpa using h')
      simpa using this

theorem fl_le_hundred (x : ℚ) (h0 : 0 ≤ x) (h1 : x ≤ 100) : fl x ≤ 100 := by
  rcases eq_or_lt_of_le h0 with h | h
  · rw [← h, fl_zero]; norm_num
  · by_cases h64 : x < 64
    · have := fl_le_two_pow x 6 h (by norm_num; exact h64)
      have e : (2 : ℚ) ^ (6 : ℤ) = 64 := by norm_num
      rw [e] at this
      linarith
    · rw [not_lt] at h64
      rw [fl_eq_pos x 6 (by norm_num; exact h64) (by norm_num; linarith)]
      have hu : (0 : ℚ) < 2 ^ ((6 : ℤ) - 52) := by positivity
      have hq : x / 2 ^ ((6 : ℤ) - 52) ≤ ((7036874417766400 : ℤ) : ℚ) := by
        rw [div_le_iff₀ hu]
        norm_num
        linarith
      have hr := roundEven_le_of_le _ _ hq
      have hr' : ((roundEven (x / 2 ^ ((6 : ℤ) - 52)) : ℤ) : ℚ) ≤ 7036874417766400 := by
        exact_mod_cast hr
      calc ((roundEven (x / 2 ^ ((6 : ℤ) - 52)) : ℤ) : ℚ) * 2 ^ ((6 : ℤ) - 52)
          ≤ 7036874417766400 * 2 ^ ((6 : ℤ) - 52) :=
            mul_le_mul_of_nonneg_right hr' (le_of_lt hu)
        _ = 100 := by norm_num

/-- Two rounded operations, a quotient in `[0,1]` times 100, stay within `2^-51` of the
exact value, relatively. -/
theorem fl_percent_error (a : ℚ) (h0 : 0 ≤ a) :
    |fl (fl a * 100) - 100 * a| ≤ 100 * a * 2 ^ (-51 : ℤ) := by
  have hp := fl_error a
  have hv := fl_error (fl a * 100)
  have hp0 := fl_nonneg a h0
  rw [abs_of_nonneg h0] at hp
  rw [abs_of_nonneg (mul_nonneg hp0 (by norm_num))] at hv
  rw [abs_le] at hp hv ⊢
  have e53 : (2 : ℚ) ^ (-53 : ℤ) = 1 / 9007199254740992 := by norm_num
  have e51 : (2 : ℚ) ^ (-51 : ℤ) = 4 / 9007199254740992 := by norm_num
  rw [e53] at hp hv
  rw [e51]
  have hA : 0 ≤ a * (1 / 9007199254740992) := by positivity
  have hB : fl a * 100 * (1 / 9007199254740992)
      ≤ 100 * (a * (1 / 9007199254740992)) * 2 := by
    have : fl a ≤ 2 * a := by linarith [hp.2]
    nlinarith
  constructor <;> linarith [hp.1, hp.2, hv.1, hv.2]

/-! ## Accuracy -/

theorem foldl_count_eq (p : Row → Bool) (data : Dataset) (c : Nat) :
    data.foldl (fun correct row => if p row then correct + 1 else correct) c
      = c + (data.filter p).length := by
  induction data generalizing c with
  | nil => simp
  | cons r rest ih =>
    rw [List.foldl_cons, ih, List.filter_cons]
    cases hp : p r
    · simp
    · simp only [if_true, List.length_cons]; omega

theorem calculateAccuracy_eq (tree : Node) (data : Dataset) (labelIndex : Int) :
    calculateAccuracy tree data labelIndex
      = Dbl.scale 100
          (Dbl.ofDiv
            ((data.filter (fun row => predict tree row = cell row labelIndex)).length : ℚ)
            (data.length : ℚ)) := by
  unfold calculateAccuracy
  have h := foldl_count_eq (fun row => decide (predict tree row = cell row labelIndex)) data 0
  simp only [decide_eq_true_eq, zero_add] at h
  simp only [h]

/-- C15 does not hold as an equation: with 11 rows of 20 predicted correctly the two
rounded operations of `(double)correct / data.size() * 100.0` give
`55.00000000000001` (`0x1.b800000000001p+5`), not `100 * 11 / 20 = 55`. -/
theorem calculateAccuracy_rounding_counterexample :
    ((List.replicate 11 ["yes"] ++ List.replicate 9 ["no"] : Dataset).filter
        (fun row => predict (Node.leaf "yes") row = cell row 0)).length = 11
      ∧ (List.replicate 11 ["yes"] ++ List.replicate 9 ["no"] : Dataset).length = 20
      ∧ calculateAccuracy (Node.leaf "yes")
          (List.replicate 11 ["yes"] ++ List.replicate 9 ["no"]) 0
        = Dbl.fin (7740561859543041 / 140737488355328)
      ∧ (7740561859543041 / 140737488355328 : ℚ) ≠ 100 * 11 / 20 := by
  have hc : ((List.replicate 11 ["yes"] ++ List.replicate 9 ["no"] : Dataset).filter
      (fun row => predict (Node.leaf "yes") row = cell row 0)).length = 11 := by decide
  have hn : (List.replicate 11 ["yes"] ++ List.replicate 9 ["no"] : Dataset).length = 20 := by
    decide
  have h1 : fl (11 / 20) = 2476979795053773 / 4503599627370496 := by
    rw [fl_eval (11 / 20) (-1) 4953959590107546 (by norm_num) (by norm_num) (by norm_num)
      (by norm_num)]
    norm_num
  have h2 : fl (2476979795053773 / 4503599627370496 * 100)
      = 7740561859543041 / 140737488355328 := by
    rw [fl_eval (2476979795053773 / 4503599627370496 * 100) 5 7740561859543041 (by norm_num)
      (by norm_num) (by norm_num) (by norm_num)]
    norm_num
  refine ⟨hc, hn, ?_, by norm_num⟩
  rw [calculateAccuracy_eq, hc, hn]
  have e : ((11 : ℕ) : ℚ) / ((20 : ℕ) : ℚ) = 11 / 20 := by norm_num
  have hne : ((20 : ℕ) : ℚ) ≠ 0 := by norm_num
  simp only [Dbl.ofDiv, hne, if_false, Dbl.scale, e, h1, h2]

/-- C15 (amended): for every tree and every non-empty dataset, with `c` the number of
rows `r` with `predict tree r = r[labelIndex]` and `n` the number of rows,
`calculateAccuracy` is the finite `double` obtained by rounding the quotient `c / n` and
then rounding its product with 100; it lies between 0 and 100 and differs from
`100 * c / n` by at most `2^-51` times that value. -/
theorem calculateAccuracy_percentage (tree : Node) (data : Dataset) (labelIndex : Int)
    (hne : data ≠ []) :
    calculateAccuracy tree data labelIndex
        = Dbl.fin (fl (fl
            (((data.filter (fun row => predict tree row = cell row labelIndex)).length : ℚ)
              / (data.length : ℚ)) * 100))
      ∧ 0 ≤ fl (fl
            (((data.filter (fun row => predict tree row = cell row labelIndex)).length : ℚ)
              / (data.length : ℚ)) * 100)
      ∧ fl (fl
            (((data.filter (fun row => predict tree row = cell row labelIndex)).length : ℚ)
              / (data.length : ℚ)) * 100) ≤ 100
      ∧ |fl (fl
            (((data.filter (fun row => predict tree row = cell row labelIndex)).length : ℚ)
              / (data.length : ℚ)) * 100)
          - 100 * ((data.filter (fun row => predict tree row = cell row labelIndex)).length : ℚ)
              / (data.length : ℚ)|
        ≤ 100 * ((data.filter (fun row => predict tree row = cell row labelIndex)).length : ℚ)
            / (data.length : ℚ) * 2 ^ (-51 : ℤ) := by
  have hn0 : 0 < data.length := List.length_pos.2 hne
  have hn : (0 : ℚ) < (data.length : ℚ) := by exact_mod_cast hn0
  have hle : ((data.filter (fun row => predict tree row = cell row labelIndex)).length : ℚ)
      ≤ (data.length : ℚ) := by
    exact_mod_cast List.length_filter_le _ data
  have hc : (0 : ℚ)
      ≤ ((data.filter (fun row => predict tree row = cell row labelIndex)).length : ℚ) := by
    positivity
  generalize hcd :
    ((data.filter (fun row => predict tree row = cell row labelIndex)).length : ℚ) = c
    at hle hc
  have ha0 : 0 ≤ c / (data.length : ℚ) := div_nonneg hc (le_of_lt hn)
  have ha1 : c / (data.length : ℚ) ≤ 1 := (div_le_one hn).2 hle
  have hp0 := fl_nonneg _ ha0
  have hp1 := fl_le_one _ ha0 ha1
  refine ⟨?_, ?_, ?_, ?_⟩
  · rw [calculateAccuracy_eq, hcd]
    simp only [Dbl.ofDiv, ne_of_gt hn, if_false, Dbl.scale]
  · exact fl_nonneg _ (mul_nonneg hp0 (by norm_num))
  · exact fl_le_hundred _ (mul_nonneg hp0 (by norm_num)) (by linarith)
  · have := fl_percent_error _ ha0
    rw [mul_div_assoc]
    exact this

/-- C15 (amended), at the tree that is the leaf `yes` and the rows `(a1,yes)`, `(a2,no)`:
one row of two is predicted correctly, the accuracy is a value between 0 and 100. -/
theorem calculateAccuracy_percentage_witness :
    ([["a1", "yes"], ["a2", "no"]] : Dataset) ≠ []
      ∧ 0 ≤ fl (fl
            (((([["a1", "yes"], ["a2", "no"]] : Dataset).filter
                (fun row => predict (Node.leaf "yes") row = cell row 1)).length : ℚ)
              / ((([["a1", "yes"], ["a2", "no"]] : Dataset).length : ℕ) : ℚ)) * 100)
      ∧ fl (fl
            (((([["a1", "yes"], ["a2", "no"]] : Dataset).filter
                (fun row => predict (Node.leaf "yes") row = cell row 1)).length : ℚ)
              / ((([["a1", "yes"], ["a2", "no"]] : Dataset).length : ℕ) : ℚ)) * 100) ≤ 100 :=
  ⟨by decide,
    (calculateAccuracy_percentage (Node.leaf "yes") [["a1", "yes"], ["a2", "no"]] 1
      (by decide)).2.1,
    (calculateAccuracy_percentage (Node.leaf "yes") [["a1", "yes"], ["a2", "no"]] 1
      (by decide)).2.2.1⟩

/-- C17 does not hold: on the empty dataset `calculateAccuracy` divides `0.0` by `0.0`,
which in `double` arithmetic is the value not-a-number, and returns it to the caller; no
failure is raised. -/
theorem calculateAccuracy_empty_counterexample :
    calculateAccuracy (Node.leaf "yes") [] 1 = Dbl.nan := by
  rw [calculateAccuracy_eq]
  simp [Dbl.ofDiv, Dbl.scale]

/-- C17 (amended): for every tree and label index, `calculateAccuracy` called with the
empty dataset returns the `double` value not-a-number (the result of `0.0 / 0.0` times
`100.0`); it has no failure path, so guarding against an empty dataset is left to the
caller. -/
theorem calculateAccuracy_empty (tree : Node) (labelIndex : Int) :
    calculateAccuracy tree [] labelIndex = Dbl.nan := by
  rw [calculateAccuracy_eq]
  simp [Dbl.ofDiv, Dbl.scale]

/-! ## Every score beats the sentinel -/

theorem foldl_add_eq_sum_rat {α : Type} (g : α → ℚ) (l : List α) (a : ℚ) :
    l.foldl (fun acc x => acc + g x) a = a + (l.map g).sum := by
  induction l generalizing a with
  | nil => simp
  | cons x rest ih => rw [List.foldl_cons, ih, List.map_cons, List.sum_cons, add_assoc]

theorem giniImpurity_le_one (data : Dataset) (labelIndex : Int) :
    giniImpurity data labelIndex ≤ 1 := by
  by_cases hne : data = []
  · subst hne
    simp [giniImpurity]
  · rw [giniImpurity_eq data labelIndex hne]
    have : 0 ≤ ((subsetsBy data labelIndex).map
        (fun kv => (kv.2.length : ℚ) / (data.length : ℚ)
          * ((kv.2.length : ℚ) / (data.length : ℚ)))).sum := by
      apply List.sum_nonneg
      intro x hx
      rw [List.mem_map] at hx
      obtain ⟨kv, _, rfl⟩ := hx
      exact mul_self_nonneg _
    linarith

theorem giniSplit_eq (data : Dataset) (f labelIndex : Int) :
    giniSplit data f labelIndex
      = ((subsetsBy data f).map
          (fun kv => (kv.2.length : ℚ) / (data.length : ℚ) * giniImpurity kv.2 labelIndex)).sum := by
  unfold giniSplit
  simp only
  rw [foldl_add_eq_sum_rat, zero_add]

theorem giniSplit_le_one (data : Dataset) (f labelIndex : Int) :
    giniSplit data f labelIndex ≤ 1 := by
  rw [giniSplit_eq]
  by_cases hne : data = []
  · subst hne
    simp [subsetsBy_nil]
  · rw [← subsetsBy_weight_sum data f hne]
    apply List.sum_le_sum
    intro kv hkv
    have h0 := (subset_weight_bounds_rat data f kv hkv).1
    have h1 := giniImpurity_le_one kv.2 labelIndex
    nlinarith

/-- In exact real arithmetic, where nothing is rounded, the information gain is not
negative (the `double` computation of the program can fall below 0 by a rounding error). -/
theorem zero_le_informationGain (data : Dataset) (f labelIndex : Int) :
    0 ≤ informationGain data f labelIndex := by
  rw [informationGain_eq]
  cases data with
  | nil => simp [subsetsBy_nil, entropy_eq_sum]
  | cons r rest =>
    have := subsetEntropy_le_entropy (r :: rest) f labelIndex (List.cons_ne_nil _ _)
    linarith

theorem zero_le_gainRatio (data : Dataset) (f labelIndex : Int) :
    0 ≤ gainRatio data f labelIndex := by
  unfold gainRatio
  simp only
  split_ifs with h
  · exact le_refl _
  · rw [not_or, not_lt] at h
    have hpos : (0 : ℝ) < splitInfo data f := lt_of_lt_of_le (by norm_num) h.2
    exact div_nonneg (zero_le_informationGain data f labelIndex) (le_of_lt hpos)

/-- Whatever the metric name, the score of a candidate is at least `-1` and so exceeds
the initial `bestScore = -1e9`. -/
theorem sentinel_lt_score (metric : String) (data : Dataset) (f labelIndex : Int) :
    sentinel < score metric data f labelIndex := by
  unfold score sentinel
  split_ifs
  · have h := giniSplit_le_one data f labelIndex
    have h' : ((giniSplit data f labelIndex : ℚ) : ℝ) ≤ 1 := by exact_mod_cast h
    linarith
  · have := zero_le_informationGain data f labelIndex
    linarith
  · have := zero_le_gainRatio data f labelIndex
    linarith
  · norm_num

/-! ## The selection loop -/

/-- A tree returned by `buildTree` that is not a leaf comes from the last branch: the
dataset is non-empty and not label-pure, there are candidates, the depth limit is not
reached, the selected feature is not the sentinel `-1`, and the node is the decision node
for that feature. -/
theorem buildTree_decision_form {S : Type} [LT S] [DecidableRel ((· < ·) : S → S → Prop)]
    (scoreOf : String → Dataset → Int → Int → S) (init : S)
    (data : Dataset) (featureIndices : List Int) (labelIndex : Int) (metric : String)
    (attributeNames : List String) (depth maxDepth : Int)
    (h : (buildTree scoreOf init data featureIndices labelIndex metric attributeNames depth
      maxDepth).isLeaf = false) :
    data ≠ [] ∧ allSame data labelIndex = false ∧ featureIndices ≠ [] ∧ depth < maxDepth
      ∧ (selectBest (fun f => scoreOf metric data f labelIndex) featureIndices (init, -1)).2
          ≠ -1
      ∧ buildTree scoreOf init data featureIndices labelIndex metric attributeNames depth
          maxDepth
        = Node.mk
            (cell attributeNames (selectBest (fun f => scoreOf metric data f labelIndex)
              featureIndices (init, -1)).2)
            (selectBest (fun f => scoreOf metric data f labelIndex) featureIndices (init, -1)).2
            "" false
            ((subsetsBy data (selectBest (fun f => scoreOf metric data f labelIndex)
                featureIndices (init, -1)).2).map fun kv =>
              (kv.1, buildTree scoreOf init kv.2
                (featureIndices.filter (fun f => f ≠ (selectBest
                  (fun f => scoreOf metric data f labelIndex) featureIndices (init, -1)).2))
                labelIndex metric attributeNames (depth + 1) maxDepth)) := by
  by_cases hne : data = []
  · subst hne
    rw [buildTree_empty] at h
    exact absurd h (by decide)
  cases hs : allSame data labelIndex with
  | true =>
    rw [buildTree_allSame scoreOf init data featureIndices labelIndex metric attributeNames
      depth maxDepth hne hs] at h
    exact absurd h (by simp [Node.leaf, Node.isLeaf])
  | false =>
    by_cases hc : featureIndices = [] ∨ maxDepth ≤ depth
    · rw [buildTree_cutoff scoreOf init data featureIndices labelIndex metric attributeNames
        depth maxDepth hne hs hc] at h
      exact absurd h (by simp [Node.leaf, Node.isLeaf])
    · rw [not_or, not_le] at hc
      have hsplit := buildTree_split scoreOf init data featureIndices labelIndex metric
        attributeNames depth maxDepth hne hs hc.1 hc.2
      by_cases hb : (selectBest (fun f => scoreOf metric data f labelIndex) featureIndices
          (init, -1)).2 = -1
      · rw [hsplit, if_pos hb] at h
        exact absurd h (by simp [Node.leaf, Node.isLeaf])
      · rw [if_neg hb] at hsplit
        exact ⟨hne, rfl, hc.1, hc.2, hb, hsplit⟩

/-- With a metric name that is none of `gini`, `info`, `gain` every candidate keeps the
score `0.0` it is initialised with, and the loop selects the first candidate. -/
theorem buildTree_default_score (data : Dataset) (f : Int) (rest : List Int)
    (labelIndex : Int) (metric : String) (attributeNames : List String)
    (depth maxDepth : Int)
    (hmetric : metric ≠ "gini" ∧ metric ≠ "info" ∧ metric ≠ "gain")
    (hne : data ≠ []) (hmixed : allSame data labelIndex = false) (hf : f ≠ -1)
    (hdepth : depth < maxDepth) :
    buildTree score sentinel data (f :: rest) labelIndex metric attributeNames depth maxDepth
      = Node.mk (cell attributeNames f) f "" false
          ((subsetsBy data f).map fun kv =>
            (kv.1, buildTree score sentinel kv.2 ((f :: rest).filter (fun g => g ≠ f))
              labelIndex metric attributeNames (depth + 1) maxDepth)) := by
  have hscore : ∀ g, score metric data g labelIndex = 0 := by
    intro g
    simp [score, hmetric.1, hmetric.2.1, hmetric.2.2]
  have hsel : selectBest (fun g => score metric data g labelIndex) (f :: rest) (sentinel, -1)
      = (score metric data f labelIndex, f) := by
    apply selectBest_first_max (fun g => score metric data g labelIndex) [] rest f
    · exact sentinel_lt_score metric data f labelIndex
    · intro g hg; simp at hg
    · intro g _
      rw [hscore, hscore]
      exact lt_irrefl _
  rw [buildTree_split score sentinel data (f :: rest) labelIndex metric attributeNames depth
    maxDepth hne hmixed (List.cons_ne_nil _ _) hdepth, hsel]
  simp only [hf, if_false]

/-- C16 does not hold: called with the metric name `entropy`, `buildTree` raises no
failure.  On the rows `(a1,b1,yes)`, `(a1,b2,yes)`, `(a2,b1,no)`, `(a2,b2,no)` with the
candidates `[1,0]` it builds a tree with the default score `0.0` for every candidate: the
root splits on the first candidate `B`, although `A` separates the classes. -/
theorem buildTree_unknown_metric_counterexample :
    buildTree score sentinel
        [["a1", "b1", "yes"], ["a1", "b2", "yes"], ["a2", "b1", "no"], ["a2", "b2", "no"]]
        [1, 0] 2 "entropy" ["A", "B", "L"] 0 8
      = Node.mk "B" 1 "" false
          [("b1", Node.mk "A" 0 "" false [("a1", Node.leaf "yes"), ("a2", Node.leaf "no")]),
            ("b2", Node.mk "A" 0 "" false [("a1", Node.leaf "yes"), ("a2", Node.leaf "no")])] := by
  have hm : "entropy" ≠ "gini" ∧ "entropy" ≠ "info" ∧ "entropy" ≠ "gain" := by decide
  rw [buildTree_default_score _ 1 [0] 2 "entropy" _ 0 8 hm (by decide) (by decide) (by decide)
    (by decide)]
  have h1 : subsetsBy
      [["a1", "b1", "yes"], ["a1", "b2", "yes"], ["a2", "b1", "no"], ["a2", "b2", "no"]] 1
      = [("b1", [["a1", "b1", "yes"], ["a2", "b1", "no"]]),
          ("b2", [["a1", "b2", "yes"], ["a2", "b2", "no"]])] := by decide
  have h2 : ([1, 0] : List Int).filter (fun g => g ≠ 1) = [0] := by decide
  simp only [h1, h2, List.map_cons, List.map_nil]
  rw [buildTree_default_score _ 0 [] 2 "entropy" _ (0 + 1) 8 hm (by decide) (by decide)
      (by decide) (by decide),
    buildTree_default_score _ 0 [] 2 "entropy" _ (0 + 1) 8 hm (by decide) (by decide)
      (by decide) (by decide)]
  have h3 : subsetsBy [["a1", "b1", "yes"], ["a2", "b1", "no"]] 0
      = [("a1", [["a1", "b1", "yes"]]), ("a2", [["a2", "b1", "no"]])] := by decide
  have h4 : subsetsBy [["a1", "b2", "yes"], ["a2", "b2", "no"]] 0
      = [("a1", [["a1", "b2", "yes"]]), ("a2", [["a2", "b2", "no"]])] := by decide
  simp only [h3, h4, List.map_cons, List.map_nil]
  rw [buildTree_allSame score sentinel [["a1", "b1", "yes"]] _ _ _ _ _ _ (by decide)
      (by decide),
    buildTree_allSame score sentinel [["a2", "b1", "no"]] _ _ _ _ _ _ (by decide) (by decide),
    buildTree_allSame score sentinel [["a1", "b2", "yes"]] _ _ _ _ _ _ (by decide)
      (by decide),
    buildTree_allSame score sentinel [["a2", "b2", "no"]] _ _ _ _ _ _ (by decide) (by decide)]
  rfl

/-- C16 (amended): called with a metric name outside `gini`, `info`, `gain`, `buildTree`
raises no failure: every candidate gets the default score `0.0`, and for a non-empty
dataset that is not label-pure, a candidate list whose first element `f` is a column
index, and `depth < maxDepth` it returns the decision node that splits on that first
candidate, with the children built in the same way. -/
theorem buildTree_unknown_metric (data : Dataset) (f : Int) (rest : List Int)
    (labelIndex : Int) (metric : String) (attributeNames : List String)
    (depth maxDepth : Int)
    (hmetric : metric ≠ "gini" ∧ metric ≠ "info" ∧ metric ≠ "gain")
    (hne : data ≠ []) (hmixed : allSame data labelIndex = false) (hf : 0 ≤ f)
    (hdepth : depth < maxDepth) :
    (∀ g, score metric data g labelIndex = 0)
      ∧ buildTree score sentinel data (f :: rest) labelIndex metric attributeNames depth
          maxDepth
        = Node.mk (cell attributeNames f) f "" false
            ((subsetsBy data f).map fun kv =>
              (kv.1, buildTree score sentinel kv.2 ((f :: rest).filter (fun g => g ≠ f))
                labelIndex metric attributeNames (depth + 1) maxDepth)) := by
  refine ⟨?_, buildTree_default_score data f rest labelIndex metric attributeNames depth
    maxDepth hmetric hne hmixed (by omega) hdepth⟩
  intro g
  simp [score, hmetric.1, hmetric.2.1, hmetric.2.2]

/-- C16 (amended), at the rows `(a1,b1,yes)`, `(a1,b2,yes)`, `(a2,b1,no)`, `(a2,b2,no)`,
the candidates `[1,0]` and the metric name `entropy`: the root splits on column 1. -/
theorem buildTree_unknown_metric_witness :
    ("entropy" ≠ "gini" ∧ "entropy" ≠ "info" ∧ "entropy" ≠ "gain")
      ∧ (buildTree score sentinel
          [["a1", "b1", "yes"], ["a1", "b2", "yes"], ["a2", "b1", "no"], ["a2", "b2", "no"]]
          [1, 0] 2 "entropy" ["A", "B", "L"] 0 8).featureIndex = 1
      ∧ (buildTree score sentinel
          [["a1", "b1", "yes"], ["a1", "b2", "yes"], ["a2", "b1", "no"], ["a2", "b2", "no"]]
          [1, 0] 2 "entropy" ["A", "B", "L"] 0 8).isLeaf = false :=
  ⟨by decide,
    by rw [(buildTree_unknown_metric
      [["a1", "b1", "yes"], ["a1", "b2", "yes"], ["a2", "b1", "no"], ["a2", "b2", "no"]]
      1 [0] 2 "entropy" ["A", "B", "L"] 0 8 (by decide) (by decide) (by decide) (by decide)
      (by decide)).2]; rfl,
    by rw [(buildTree_unknown_metric
      [["a1", "b1", "yes"], ["a1", "b2", "yes"], ["a2", "b1", "no"], ["a2", "b2", "no"]]
      1 [0] 2 "entropy" ["A", "B", "L"] 0 8 (by decide) (by decide) (by decide) (by decide)
      (by decide)).2]; rfl⟩

/-- C20: whenever `buildTree` returns a node `t` that is not a leaf, with `b` its
`featureIndex`: `b` is the feature selected by the loop, `featureName` is
`attributeNames[b]`, the children map has exactly one key per distinct value `row[b]` of
the rows of the dataset, and the child under the key `v` is the tree built from the rows
with `row[b] = v` in their original order, the candidates with every occurrence of `b`
removed, and `depth + 1`. -/
theorem buildTree_children {S : Type} [LT S] [DecidableRel ((· < ·) : S → S → Prop)]
    (scoreOf : String → Dataset → Int → Int → S) (init : S)
    (data : Dataset) (featureIndices : List Int) (labelIndex : Int) (metric : String)
    (attributeNames : List String) (depth maxDepth : Int) (t : Node)
    (ht : t = buildTree scoreOf init data featureIndices labelIndex metric attributeNames
      depth maxDepth)
    (hleaf : t.isLeaf = false) :
    t.featureIndex
        = (selectBest (fun f => scoreOf metric data f labelIndex) featureIndices (init, -1)).2
      ∧ t.featureName = cell attributeNames t.featureIndex
      ∧ KeySorted t.children
      ∧ (∀ v, v ∈ t.children.map Prod.fst ↔ ∃ row ∈ data, cell row t.featureIndex = v)
      ∧ (∀ v, (∃ row ∈ data, cell row t.featureIndex = v) →
          mapFind v t.children
            = some (buildTree scoreOf init
                (data.filter (fun row => cell row t.featureIndex = v))
                (featureIndices.filter (fun f => f ≠ t.featureIndex))
                labelIndex metric attributeNames (depth + 1) maxDepth)) := by
  rw [ht] at hleaf
  obtain ⟨_, _, _, _, _, hform⟩ := buildTree_decision_form scoreOf init data featureIndices
    labelIndex metric attributeNames depth maxDepth hleaf
  rw [← ht] at hform
  generalize (selectBest (fun f => scoreOf metric data f labelIndex) featureIndices
    (init, -1)).2 = b at hform
  subst hform
  simp only [Node.featureIndex, Node.featureName, Node.children]
  have hkeys : ((subsetsBy data b).map fun kv =>
        (kv.1, buildTree scoreOf init kv.2 (featureIndices.filter (fun f => f ≠ b))
          labelIndex metric attributeNames (depth + 1) maxDepth)).map Prod.fst
      = (subsetsBy data b).map Prod.fst := by
    rw [List.map_map]; rfl
  refine ⟨trivial, trivial, ?_, ?_, ?_⟩
  · unfold KeySorted
    rw [hkeys]
    exact subsetsBy_sorted data b
  · intro v
    rw [hkeys]
    exact mem_subsetsBy_keys_iff data b v
  · rintro v ⟨row, hrow, hv⟩
    rw [mapFind_map (fun d => buildTree scoreOf init d
        (featureIndices.filter (fun f => f ≠ b)) labelIndex metric attributeNames (depth + 1)
        maxDepth), mapFind_subsetsBy]
    have hne : data.filter (fun r => cell r b = v) ≠ [] := by
      intro h0
      have : row ∈ data.filter (fun r => cell r b = v) :=
        List.mem_filter.2 ⟨hrow, by simp [hv]⟩
      rw [h0] at this
      simp at this
    rw [if_neg hne]
    rfl

/-- C20, at the tree built from `(a,"")`, `(b,"")`, `(c,x)`: the root has the children
`a`, `b`, `c`, and the child under `c` is the tree built from the row `(c,x)`. -/
theorem buildTree_children_witness :
    (Node.mk "A" 0 "" false
        [("a", Node.leaf ""), ("b", Node.leaf ""), ("c", Node.leaf "x")]).isLeaf = false
      ∧ (∃ row ∈ ([["a", ""], ["b", ""], ["c", "x"]] : Dataset), cell row 0 = "c")
      ∧ mapFind "c" [("a", Node.leaf ""), ("b", Node.leaf ""), ("c", Node.leaf "x")]
          = some (buildTree score sentinel
              (([["a", ""], ["b", ""], ["c", "x"]] : Dataset).filter
                (fun row => cell row 0 = "c"))
              (([0] : List Int).filter (fun f => f ≠ 0)) 1 "gini" ["A", "L"] (0 + 1) 8) :=
  ⟨rfl, ⟨["c", "x"], by decide, by decide⟩,
    (buildTree_children score sentinel [["a", ""], ["b", ""], ["c", "x"]] [0] 1 "gini"
      ["A", "L"] 0 8
      (Node.mk "A" 0 "" false [("a", Node.leaf ""), ("b", Node.leaf ""), ("c", Node.leaf "x")])
      buildTree_three_rows.symm rfl).2.2.2.2 "c" ⟨["c", "x"], by decide, by decide⟩⟩

/-! ## The defensive fallback of the selection loop -/

/-- The winner of the `maxCount` loop over a key-ascending count map with a positive
entry: an entry with the largest count, and the first such entry in key order. -/
theorem argMaxCount_first (m : List (String × Nat)) (hsorted : KeySorted m)
    (kv₀ : String × Nat) (h₀ : kv₀ ∈ m) (hpos : 0 < kv₀.2) :
    argMaxCount m ∈ m
      ∧ (∀ kv ∈ m, kv.2 ≤ (argMaxCount m).2)
      ∧ ∀ kv ∈ m, kv.2 = (argMaxCount m).2 →
          kv.1 = (argMaxCount m).1 ∨ (argMaxCount m).1.data < kv.1.data := by
  obtain ⟨hmem, hmax⟩ := argMaxCount_mem m kv₀ h₀ hpos
  refine ⟨hmem, hmax, ?_⟩
  rcases argMaxCount_split m ("", 0) with ⟨_, h2⟩ | ⟨pre, post, h1, _, h3, _⟩
  · exfalso
    have := h2 kv₀ h₀
    simp only [Nat.le_zero] at this
    omega
  · change m = pre ++ argMaxCount m :: post at h1
    change ∀ kv ∈ pre, kv.2 < (argMaxCount m).2 at h3
    generalize argMaxCount m = r at h1 h3
    intro kv hkv hEq
    unfold KeySorted at hsorted
    rw [h1, List.map_append, List.map_cons, List.pairwise_append, List.pairwise_cons]
      at hsorted
    rw [h1, List.mem_append, List.mem_cons] at hkv
    rcases hkv with h | h | h
    · have := h3 kv h
      omega
    · left; rw [h]
    · right
      exact hsorted.2.1.1 kv.1 (List.mem_map.2 ⟨kv, h, rfl⟩)

/-- What the vote among the immediate leaf children returns when there is one: with
`best` the label carried by the largest number of leaf children, and among the labels
that tie for that number the first in ascending string order, the answer is `best`,
except that it is `"unknown"` when `best` is the empty string. -/
theorem leafVote_first_tied (children : List (String × Node))
    (hleaf : ∃ kv ∈ children, kv.2.isLeaf = true) :
    ∃ best : String,
      (∃ kv ∈ children, kv.2.isLeaf = true ∧ kv.2.label = best)
      ∧ (∀ l, (children.filter (fun kv => kv.2.isLeaf && decide (kv.2.label = l))).length
            ≤ (children.filter (fun kv => kv.2.isLeaf && decide (kv.2.label = best))).length)
      ∧ (∀ l, (children.filter (fun kv => kv.2.isLeaf && decide (kv.2.label = l))).length
              = (children.filter
                  (fun kv => kv.2.isLeaf && decide (kv.2.label = best))).length →
            l = best ∨ best.data < l.data)
      ∧ leafVote children = if best = "" then "unknown" else best := by
  generalize hm : children.foldl (fun counts kv =>
      if kv.2.isLeaf then mapModify 0 (· + 1) kv.2.label counts else counts) [] = m
  have hcounts : ∀ l, KeySorted m ∧ mapFind l m
      = if (children.filter (fun kv => kv.2.isLeaf && decide (kv.2.label = l))).length = 0
        then none
        else some (children.filter (fun kv => kv.2.isLeaf && decide (kv.2.label = l))).length := by
    intro l; rw [← hm]; exact leafVote_counts children l
  have hvote : leafVote children
      = if (argMaxCount m).1 = "" then "unknown" else (argMaxCount m).1 := by
    simp only [leafVote, hm]
  obtain ⟨kv₀, hkv₀, hleaf₀⟩ := hleaf
  have hpos₀ : (children.filter
      (fun kv => kv.2.isLeaf && decide (kv.2.label = kv₀.2.label))).length ≠ 0 := by
    rw [Ne, List.length_eq_zero]
    intro h0
    have : kv₀ ∈ children.filter (fun kv => kv.2.isLeaf && decide (kv.2.label = kv₀.2.label)) :=
      List.mem_filter.2 ⟨hkv₀, by simp [hleaf₀]⟩
    rw [h0] at this
    simp at this
  have hmem₀ := mem_of_mapFind _ _ m (by rw [(hcounts kv₀.2.label).2, if_neg hpos₀])
  obtain ⟨hbest, hmax, hfirst⟩ :=
    argMaxCount_first m (hcounts "").1 _ hmem₀ (Nat.pos_of_ne_zero hpos₀)
  have hfind := mapFind_of_mem (argMaxCount m).1 (argMaxCount m).2 m (hcounts "").1 hbest
  rw [(hcounts (argMaxCount m).1).2] at hfind
  split_ifs at hfind with hz
  simp only [Option.some.injEq] at hfind
  refine ⟨(argMaxCount m).1, ?_, ?_, ?_, hvote⟩
  · have hne : children.filter
        (fun kv => kv.2.isLeaf && decide (kv.2.label = (argMaxCount m).1)) ≠ [] := by
      rw [Ne, ← List.length_eq_zero]; exact hz
    obtain ⟨kv, hkv⟩ := List.exists_mem_of_ne_nil _ hne
    rw [List.mem_filter] at hkv
    simp only [Bool.and_eq_true, decide_eq_true_eq] at hkv
    exact ⟨kv, hkv.1, hkv.2.1, hkv.2.2⟩
  · intro l
    by_cases hl : (children.filter
        (fun kv => kv.2.isLeaf && decide (kv.2.label = l))).length = 0
    · rw [hl]; exact Nat.zero_le _
    · have hmem := mem_of_mapFind l _ m (by rw [(hcounts l).2, if_neg hl])
      have := hmax _ hmem
      rw [hfind]
      exact this
  · intro l hl
    have hl0 : (children.filter
        (fun kv => kv.2.isLeaf && decide (kv.2.label = l))).length ≠ 0 := by
      rw [hl]; exact hz
    have hmem := mem_of_mapFind l _ m (by rw [(hcounts l).2, if_neg hl0])
    exact hfirst _ hmem (by rw [hl, hfind])

/-- The tree built from the rows `(a,"")`, `(b,x)` with the single candidate column 0,
label column 1 and the metric `gini`. -/
theorem buildTree_two_rows :
    buildTree score sentinel [["a", ""], ["b", "x"]] [0] 1 "gini" ["A", "L"] 0 8
      = Node.mk "A" 0 "" false [("a", Node.leaf ""), ("b", Node.leaf "x")] := by
  have h1 : subsetsBy [["a", ""], ["b", "x"]] 0
      = [("a", [["a", ""]]), ("b", [["b", "x"]])] := by decide
  have hbne : (selectBest (fun f => score "gini" [["a", ""], ["b", "x"]] f 1) [0]
      (sentinel, -1)).2 = 0 := by
    rcases selectBest_snd_mem (fun f => score "gini" [["a", ""], ["b", "x"]] f 1) [0]
      (sentinel, -1) with h | h
    · exfalso
      have h2 : selectBest (fun f => score "gini" [["a", ""], ["b", "x"]] f 1) [0]
          (sentinel, -1) = (score "gini" [["a", ""], ["b", "x"]] 0 1, 0) :=
        selectBest_first_max _ [] [] 0 _ (sentinel_lt_score _ _ _ _) (by simp) (by simp)
      rw [h2] at h
      exact absurd h (by decide)
    · simpa using h
  rw [buildTree_split score sentinel _ _ _ _ _ _ _ (by decide) (by decide) (by decide)
    (by decide), hbne]
  simp only [h1, List.map_cons, List.map_nil]
  rw [buildTree_allSame score sentinel [["a", ""]] _ _ _ _ _ _ (by decide) (by decide),
    buildTree_allSame score sentinel [["b", "x"]] _ _ _ _ _ _ (by decide) (by decide)]
  rfl

/-- The tree built from the rows `(a1,b1,yes)`, `(a1,b2,yes)`, `(a2,b1,no)`, `(a2,b2,no)`
with the candidates `[0,1]`, label column 2 and the metric `info`. -/
theorem buildTree_four_rows_info :
    buildTree score sentinel
        [["a1", "b1", "yes"], ["a1", "b2", "yes"], ["a2", "b1", "no"], ["a2", "b2", "no"]]
        [0, 1] 2 "info" ["A", "B", "L"] 0 8
      = Node.mk "A" 0 "" false [("a1", Node.leaf "yes"), ("a2", Node.leaf "no")] := by
  have hscore : ∀ g, score "info"
      [["a1", "b1", "yes"], ["a1", "b2", "yes"], ["a2", "b1", "no"], ["a2", "b2", "no"]] g 2
      = informationGain
        [["a1", "b1", "yes"], ["a1", "b2", "yes"], ["a2", "b1", "no"], ["a2", "b2", "no"]]
        g 2 := by
    intro g
    have : ¬ ("info" = "gini") := by decide
    simp [score, this]
  have hsel : selectBest (fun g => score "info"
      [["a1", "b1", "yes"], ["a1", "b2", "yes"], ["a2", "b1", "no"], ["a2", "b2", "no"]] g 2)
      [0, 1] (sentinel, -1)
      = (score "info"
          [["a1", "b1", "yes"], ["a1", "b2", "yes"], ["a2", "b1", "no"], ["a2", "b2", "no"]]
          0 2, 0) := by
    apply selectBest_first_max _ [] [1] 0
    · exact sentinel_lt_score _ _ _ _
    · intro g hg; simp at hg
    · intro g _
      rw [hscore, hscore, informationGain_of_separates _ 0 2 (by decide)]
      exact not_lt.2 (informationGain_le_entropy _ g 2)
  have h1 : subsetsBy
      [["a1", "b1", "yes"], ["a1", "b2", "yes"], ["a2", "b1", "no"], ["a2", "b2", "no"]] 0
      = [("a1", [["a1", "b1", "yes"], ["a1", "b2", "yes"]]),
          ("a2", [["a2", "b1", "no"], ["a2", "b2", "no"]])] := by decide
  rw [buildTree_split score sentinel _ _ _ _ _ _ _ (by decide) (by decide) (by decide)
    (by decide), hsel]
  simp only [h1, List.map_cons, List.map_nil]
  rw [buildTree_allSame score sentinel [["a1", "b1", "yes"], ["a1", "b2", "yes"]] _ _ _ _ _ _
      (by decide) (by decide),
    buildTree_allSame score sentinel [["a2", "b1", "no"], ["a2", "b2", "no"]] _ _ _ _ _ _
      (by decide) (by decide)]
  rfl

/-- The example of the specification: in the tree built from the four rows with the
metric `info`, the unseen value `a3` is answered by the vote among the leaf children
`yes` and `no`, a tie, and the answer is `no`, the first of the two in string order. -/
theorem predict_four_rows_unseen :
    predict
        (buildTree score sentinel
          [["a1", "b1", "yes"], ["a1", "b2", "yes"], ["a2", "b1", "no"], ["a2", "b2", "no"]]
          [0, 1] 2 "info" ["A", "B", "L"] 0 8)
        ["a3", "b1"] = "no" := by
  rw [buildTree_four_rows_info]
  decide

/-- C22 does not hold when the empty string is among the tied labels.  The rows `(a,"")`,
`(b,x)` (label column 1, metric `gini`) build a root with the leaf children `""` and `x`;
for the sample `(c,"")` the value `c` is not a key, the labels `""` and `x` tie with one
leaf child each, the first of them in ascending string order is `""`, and `predict`
answers `"unknown"`. -/
theorem predict_fallback_tie_empty_label :
    buildTree score sentinel [["a", ""], ["b", "x"]] [0] 1 "gini" ["A", "L"] 0 8
        = Node.mk "A" 0 "" false [("a", Node.leaf ""), ("b", Node.leaf "x")]
      ∧ mapFind (cell ["c", ""] 0) [("a", Node.leaf ""), ("b", Node.leaf "x")] = none
      ∧ ([("a", Node.leaf ""), ("b", Node.leaf "x")].filter
          (fun kv => kv.2.isLeaf && decide (kv.2.label = ""))).length = 1
      ∧ ([("a", Node.leaf ""), ("b", Node.leaf "x")].filter
          (fun kv => kv.2.isLeaf && decide (kv.2.label = "x"))).length = 1
      ∧ ("" : String).data < ("x" : String).data
      ∧ predict (Node.mk "A" 0 "" false [("a", Node.leaf ""), ("b", Node.leaf "x")])
          ["c", ""] = "unknown" :=
  ⟨buildTree_two_rows, rfl, by decide, by decide, by decide, by decide⟩

/-! ## Perfect fit on consistent training data -/

theorem leafLabels_leaf (l : String) : leafLabels (Node.leaf l) = [l] := by
  simp [Node.leaf, leafLabels]

theorem mem_leafLabelsIn (children : List (String × Node)) (l : String) :
    l ∈ leafLabelsIn children ↔ ∃ kv ∈ children, l ∈ leafLabels kv.2 := by
  induction children with
  | nil => simp [leafLabelsIn]
  | cons a rest ih =>
    obtain ⟨k, child⟩ := a
    simp only [leafLabelsIn, List.mem_append, ih, List.mem_cons, exists_eq_or_imp]

theorem mem_leafLabels_decision (n : String) (i : Int) (lab : String)
    (children : List (String × Node)) (l : String) :
    l ∈ leafLabels (Node.mk n i lab false children)
      ↔ ∃ kv ∈ children, l ∈ leafLabels kv.2 := by
  simp only [leafLabels, Bool.false_eq_true, if_false, mem_leafLabelsIn]

theorem label_mem_leafLabels (c : Node) (h : c.isLeaf = true) : c.label ∈ leafLabels c := by
  obtain ⟨n, i, lab, b, children⟩ := c
  change b = true at h
  subst h
  simp [leafLabels, Node.label]

theorem majorityLabel_mem (data : Dataset) (labelIndex : Int) (hne : data ≠ []) :
    ∃ row ∈ data, cell row labelIndex = majorityLabel data labelIndex := by
  obtain ⟨pre, post, hsplit, _, _⟩ := majorityLabel_split data labelIndex hne
  have hmem : ((argMaxCount (countLabels data labelIndex)).1,
      (argMaxCount (countLabels data labelIndex)).2) ∈ countLabels data labelIndex := by
    have : argMaxCount (countLabels data labelIndex)
        ∈ pre ++ argMaxCount (countLabels data labelIndex) :: post := by simp
    rw [← hsplit] at this
    exact this
  obtain ⟨hc, hc0⟩ := (mem_countLabels_iff data labelIndex _ _).1 hmem
  have hne' : data.filter (fun row => cell row labelIndex
      = (argMaxCount (countLabels data labelIndex)).1) ≠ [] := by
    rw [Ne, ← List.length_eq_zero, ← hc]; exact hc0
  obtain ⟨row, hrow⟩ := List.exists_mem_of_ne_nil _ hne'
  rw [List.mem_filter] at hrow
  exact ⟨row, hrow.1, of_decide_eq_true hrow.2⟩

/-- In the tree built from a non-empty dataset every leaf label is the label of some row,
and `predict` answers the label of some row or `"unknown"`. -/
theorem buildTree_labels_aux {S : Type} [LT S] [DecidableRel ((· < ·) : S → S → Prop)]
    (scoreOf : String → Dataset → Int → Int → S) (init : S)
    (labelIndex : Int) (metric : String) (attributeNames : List String) (maxDepth : Int)
    (data : Dataset) (featureIndices : List Int) (depth : Int) (hne : data ≠ []) :
    (∀ l ∈ leafLabels (buildTree scoreOf init data featureIndices labelIndex metric
        attributeNames depth maxDepth), ∃ row ∈ data, cell row labelIndex = l)
      ∧ ∀ sample,
          (∃ row ∈ data, cell row labelIndex
            = predict (buildTree scoreOf init data featureIndices labelIndex metric
                attributeNames depth maxDepth) sample)
          ∨ predict (buildTree scoreOf init data featureIndices labelIndex metric
              attributeNames depth maxDepth) sample = "unknown" := by
  revert hne
  refine buildTree_induction scoreOf init labelIndex metric attributeNames maxDepth
    (fun data _ _ t => data ≠ [] →
      (∀ l ∈ leafLabels t, ∃ row ∈ data, cell row labelIndex = l)
        ∧ ∀ sample, (∃ row ∈ data, cell row labelIndex = predict t sample)
            ∨ predict t sample = "unknown")
    ?_ ?_ ?_ ?_ ?_ data featureIndices depth
  · intro _ _ h
    exact absurd rfl h
  · intro data _ _ hne _ _
    have hocc : ∃ row ∈ data, cell row labelIndex = cell (data.headD []) labelIndex := by
      cases data with
      | nil => exact absurd rfl hne
      | cons r rest => exact ⟨r, List.mem_cons_self _ _, rfl⟩
    refine ⟨?_, fun sample => Or.inl ?_⟩
    · intro l hl
      rw [leafLabels_leaf, List.mem_singleton] at hl
      rw [hl]; exact hocc
    · rw [predict_leaf_node]; exact hocc
  · intro data _ _ hne _ _ _
    have hocc := majorityLabel_mem data labelIndex hne
    refine ⟨?_, fun sample => Or.inl ?_⟩
    · intro l hl
      rw [leafLabels_leaf, List.mem_singleton] at hl
      rw [hl]; exact hocc
    · rw [predict_leaf_node]; exact hocc
  · intro data _ _ hne _ _ _ _ _
    have hocc := majorityLabel_mem data labelIndex hne
    refine ⟨?_, fun sample => Or.inl ?_⟩
    · intro l hl
      rw [leafLabels_leaf, List.mem_singleton] at hl
      rw [hl]; exact hocc
    · rw [predict_leaf_node]; exact hocc
  · intro data feats depth best _ _ _ _ _ _ ih _
    have hchild : ∀ kv ∈ (subsetsBy data best).map (fun kv =>
          (kv.1, buildTree scoreOf init kv.2 (feats.filter (fun f => f ≠ best)) labelIndex
            metric attributeNames (depth + 1) maxDepth)),
        (∀ l ∈ leafLabels kv.2, ∃ row ∈ data, cell row labelIndex = l)
          ∧ ∀ sample, (∃ row ∈ data, cell row labelIndex = predict kv.2 sample)
              ∨ predict kv.2 sample = "unknown" := by
      intro kv hkv
      rw [List.mem_map] at hkv
      obtain ⟨kv', hkv', rfl⟩ := hkv
      obtain ⟨hsub, hnonempty⟩ := subsetsBy_snd data best kv' hkv'
      obtain ⟨h1, h2⟩ := ih kv' hkv' hnonempty
      have hin : ∀ row ∈ kv'.2, row ∈ data := by
        intro row hrow
        rw [hsub] at hrow
        exact (List.mem_filter.1 hrow).1
      refine ⟨?_, ?_⟩
      · intro l hl
        obtain ⟨row, hrow, e⟩ := h1 l hl
        exact ⟨row, hin row hrow, e⟩
      · intro sample
        rcases h2 sample with ⟨row, hrow, e⟩ | h
        · exact Or.inl ⟨row, hin row hrow, e⟩
        · exact Or.inr h
    generalize (subsetsBy data best).map (fun kv =>
      (kv.1, buildTree scoreOf init kv.2 (feats.filter (fun f => f ≠ best)) labelIndex
        metric attributeNames (depth + 1) maxDepth)) = children at hchild
    refine ⟨?_, ?_⟩
    · intro l hl
      rw [mem_leafLabels_decision] at hl
      obtain ⟨kv, hkv, hl'⟩ := hl
      exact (hchild kv hkv).1 l hl'
    · intro sample
      cases hfind : mapFind (cell sample best) children with
      | some child =>
        rw [predict_found _ _ _ _ _ _ hfind]
        exact (hchild _ (mem_of_mapFind _ _ _ hfind)).2 sample
      | none =>
        rw [predict_absent _ _ _ _ _ hfind]
        by_cases hleaf : ∃ kv ∈ children, kv.2.isLeaf = true
        · obtain ⟨lab, ⟨kv, hkv, hkl, hklab⟩, _, _, hvote⟩ := leafVote_first_tied children hleaf
          rw [hvote]
          by_cases he : lab = ""
          · right; simp [he]
          · left
            rw [if_neg he, ← hklab]
            exact (hchild kv hkv).1 _ (label_mem_leafLabels kv.2 hkl)
        · right
          apply leafVote_no_leaf
          intro kv hkv
          cases hb : kv.2.isLeaf with
          | false => rfl
          | true => exact absurd ⟨kv, hkv, hb⟩ hleaf

/-- C24: for every non-empty dataset and every candidate list, metric name, depth limit
(and way of scoring), every subset of a partition is non-empty, every leaf label of the
tree built is the label of some row of the dataset, and for every sample `predict`
answers the label of some row of the dataset or `"unknown"`. -/
theorem buildTree_labels_from_data {S : Type} [LT S] [DecidableRel ((· < ·) : S → S → Prop)]
    (scoreOf : String → Dataset → Int → Int → S) (init : S)
    (data : Dataset) (featureIndices : List Int) (labelIndex : Int) (metric : String)
    (attributeNames : List String) (depth maxDepth : Int) (hne : data ≠ []) :
    (∀ f, ∀ kv ∈ subsetsBy data f, kv.2 ≠ [])
      ∧ (∀ l ∈ leafLabels (buildTree scoreOf init data featureIndices labelIndex metric
          attributeNames depth maxDepth), ∃ row ∈ data, cell row labelIndex = l)
      ∧ ∀ sample,
          (∃ row ∈ data, cell row labelIndex
            = predict (buildTree scoreOf init data featureIndices labelIndex metric
                attributeNames depth maxDepth) sample)
          ∨ predict (buildTree scoreOf init data featureIndices labelIndex metric
              attributeNames depth maxDepth) sample = "unknown" := by
  obtain ⟨h1, h2⟩ := buildTree_labels_aux scoreOf init labelIndex metric attributeNames
    maxDepth data featureIndices depth hne
  exact ⟨fun f kv hkv => (subsetsBy_snd data f kv hkv).2, h1, h2⟩

/-- C24, at the tree built from `(a,"")`, `(b,"")`, `(c,x)` and the sample `(d,"")` with
the unseen value `d`: the answer is `"unknown"`, and the leaf label `x` is the label of
the row `(c,x)`. -/
theorem buildTree_labels_from_data_witness :
    ([["a", ""], ["b", ""], ["c", "x"]] : Dataset) ≠ []
      ∧ "x" ∈ leafLabels (buildTree score sentinel [["a", ""], ["b", ""], ["c", "x"]] [0] 1
          "gini" ["A", "L"] 0 8)
      ∧ (∃ row ∈ ([["a", ""], ["b", ""], ["c", "x"]] : Dataset), cell row 1 = "x")
      ∧ ((∃ row ∈ ([["a", ""], ["b", ""], ["c", "x"]] : Dataset),
            cell row 1
              = predict (buildTree score sentinel [["a", ""], ["b", ""], ["c", "x"]] [0] 1
                  "gini" ["A", "L"] 0 8) ["d", ""])
          ∨ predict (buildTree score sentinel [["a", ""], ["b", ""], ["c", "x"]] [0] 1
              "gini" ["A", "L"] 0 8) ["d", ""] = "unknown") :=
  ⟨by decide, by rw [buildTree_three_rows]; decide,
    (buildTree_labels_from_data score sentinel [["a", ""], ["b", ""], ["c", "x"]] [0] 1
      "gini" ["A", "L"] 0 8 (by decide)).2.1 "x" (by rw [buildTree_three_rows]; decide),
    (buildTree_labels_from_data score sentinel [["a", ""], ["b", ""], ["c", "x"]] [0] 1
      "gini" ["A", "L"] 0 8 (by decide)).2.2 ["d", ""]⟩

/-! ## Gini impurity in `double` arithmetic -/

end DecisionTree
